import Mathlib

/-!
Verification of the vault secret store (notshridhar/vault) against its
natural-language specification.

The development shallowly embeds the Rust sources:

* `src/secret.rs` — the secret store engine (`get_secret`, `set_secret`,
  `remove_secret`, `reserve_index`, `check_crc`, `update_crc`,
  `read_index_file`, ...), modelled as explicit state passing over a
  `VaultState` that mirrors the files of the lock directory.
* `src/utils.rs` — `get_minimum_available_value` (slot allocation).
* `src/glob.rs` — `filter_matching` (pure pattern matching over keys) and
  `get_matching_files` / `remove_matching_files` (filesystem matching),
  the latter over an explicit directory-tree model.
* `src/util/glob.rs` — `explore_contents` (directory-like exploration of a
  flat list of keys).

Rust strings are modelled as `List Char` (for valid UTF-8 the byte order
Rust compares with coincides with the codepoint order used here), Rust
`HashMap`s as association lists with HashMap semantics, and the `orion`
AEAD primitives as an ideal authenticated cipher that records the derived
key and the plaintext; the CRC32 function of the `crc` crate is an
arbitrary parameter `crcFn` of the engine, so every theorem below holds
for the actual checksum function.  `fs` effects are explicit fields of
`VaultState`, plus an event trace recording the order of writes.
-/

/-- A Rust string / `&str`, as its list of characters. -/
abbrev Str := List Char

/-- Rust `Vec::sort` through the `VecExt::into_sorted` helper of
`src/util.rs`: stable ascending sort.  For a linear order the sorted
permutation of a list is unique, so insertion sort models it exactly. -/
def into_sorted {α : Type} [LinearOrder α] (l : List α) : List α :=
  List.insertionSort (· ≤ ·) l

section AssocMap

variable {κ ν : Type} [DecidableEq κ]

/-- Rust `HashMap::get`, on an association-list model of the map. -/
def mapGet : List (κ × ν) → κ → Option ν
  | [], _ => none
  | e :: rest, k => if e.1 = k then some e.2 else mapGet rest k

/-- Rust `HashMap::insert`: replace the entry when the key is present,
append it otherwise. -/
def mapInsert : List (κ × ν) → κ → ν → List (κ × ν)
  | [], k, v => [(k, v)]
  | e :: rest, k, v => if e.1 = k then (k, v) :: rest else e :: mapInsert rest k v

/-- Rust `HashMap::remove` (maps in reachable states have no duplicate
keys, so removing every matching entry is the same operation). -/
def mapRemove (l : List (κ × ν)) (k : κ) : List (κ × ν) :=
  l.filter (fun e => e.1 ≠ k)

/-- Rust `HashMap::values`. -/
def mapValues (l : List (κ × ν)) : List ν :=
  l.map (·.2)

/-- Rust `HashMap::contains_key`. -/
def mapContains (l : List (κ × ν)) (k : κ) : Bool :=
  (mapGet l k).isSome

end AssocMap

/-- The decrypted Index: secret path to slot id.  `src/secret.rs` stores
slot ids as decimal strings and parses them with `parse::<u16>` at every
use; the embedding keeps the parsed number. -/
abbrev IndexMap := List (Str × Nat)

/-- From `src/utils.rs` (`get_minimum_available_value`): the scanning loop
`for value in values { if min_value == value { min_value += 1 } else { break } }`
over the sorted values, starting from `min_value = 1`. -/
def minAvailLoop : Nat → List Nat → Nat
  | min_value, [] => min_value
  | min_value, value :: rest =>
    if min_value = value then minAvailLoop (min_value + 1) rest else min_value

/-- From `src/utils.rs`: the smallest slot id the map does not use,
starting the scan at `1`. -/
def get_minimum_available_value (map : IndexMap) : Nat :=
  minAvailLoop 1 (into_sorted (mapValues map))

/-- From `src/secret.rs` lines 150-161 (`reserve_index`): folds the sorted
values with `fold(0, |accum, val| if accum + 1 == val { val } else { accum })`
and inserts the result for the new path.  Returns the chosen slot id and
the updated map. -/
def reserve_index (index_map : IndexMap) (secret_path : Str) : Nat × IndexMap :=
  let new_index :=
    (into_sorted (mapValues index_map)).foldl
      (fun accum val => if accum + 1 = val then val else accum) 0
  (new_index, mapInsert index_map secret_path new_index)

/-- Rust `str::matches('/').count()`: the number of `/` separators. -/
def count_levels (s : Str) : Nat :=
  s.count '/'

/-- Rust `str::starts_with`. -/
def starts_with (s pre : Str) : Bool :=
  pre.isPrefixOf s

/-- Rust `str::ends_with`. -/
def ends_with (s suf : Str) : Bool :=
  suf.reverse.isPrefixOf s.reverse

/-- Rust `str::trim_end_matches('*')`: remove every trailing `*`. -/
def trim_trailing_stars (s : Str) : Str :=
  (s.reverse.dropWhile (· = '*')).reverse

/-- From `src/glob.rs` lines 132-165 (`filter_matching`): keep the items
matching the pattern.  A trailing `**` keeps every item starting with the
stripped pattern; a single trailing `*` additionally requires the same
number of `/` separators; otherwise only the pattern itself matches.  The
two starred branches sort their result (`into_sorted`). -/
def filter_matching (items : List Str) (pattern : Str) : List Str :=
  if ends_with pattern ['*', '*'] then
    let pre := pattern.dropLast.dropLast
    into_sorted (items.filter (fun item => starts_with item pre))
  else if ends_with pattern ['*'] then
    let pre := pattern.dropLast
    let pat_levels := count_levels pre
    into_sorted (items.filter
      (fun item => starts_with item pre && (count_levels item = pat_levels)))
  else
    items.filter (fun item => item = pattern)

/-- Rust `str::match_indices(c)` (the indices only, in ascending order).
Indices count characters; the Rust byte indices always sit on character
boundaries here, so the selected slices are the same. -/
def match_indices (c : Char) : Str → List Nat
  | [] => []
  | a :: rest =>
    let tail_pos := (match_indices c rest).map (· + 1)
    if a = c then 0 :: tail_pos else tail_pos

/-- From `src/util/glob.rs` lines 185-193: the entry built for one
matching item of `explore_contents`.  `start` is one past the
`prefix_levels`-th slash (`slashes.nth(prefix_levels - 1)`, whose unwrap
is safe because the caller checked the item has at least `prefix_levels`
separators), or `0` when `prefix_levels = 0`; if another slash follows,
the slice up to and including it is marked with a leading `!`. -/
def explore_entry (prefix_levels : Nat) (item : Str) : Str :=
  let slashes := match_indices '/' item
  let start :=
    if prefix_levels = 0 then 0 else (slashes.getD (prefix_levels - 1) 0) + 1
  match (slashes.drop prefix_levels).head? with
  | some e => '!' :: ((item.drop start).take (e + 1 - start))
  | none => item.drop start

/-- From `src/util/glob.rs` lines 175-206 (`explore_contents`): keep the
keys that start with the prefix and have the same number of separators or
exactly one more, build their entries, deduplicate (`HashSet`), sort, and
strip the leading `!` markers (`trim_start_matches('!')`). -/
def explore_contents (keys : List Str) (pre : Str) : List Str :=
  let prefix_levels := count_levels pre
  let entries := keys.filterMap (fun item =>
    let item_levels := count_levels item
    if starts_with item pre &&
        (item_levels = prefix_levels || item_levels = prefix_levels + 1)
    then some (explore_entry prefix_levels item)
    else none)
  (into_sorted entries.dedup).map (fun val => val.dropWhile (· = '!'))

/-- The segments of a path between its `/` separators (`"a/b"` gives
`["a", "b"]`, a trailing slash gives a final empty segment). -/
def path_segments : Str → List Str
  | [] => [[]]
  | c :: rest =>
    if c = '/' then [] :: path_segments rest
    else
      match path_segments rest with
      | [] => [[c]]
      | s :: ss => (c :: s) :: ss

/-- Modelled from the spec for comparison with `explore_entry`: the next
path segment of the key after the prefix levels, suffixed with `/` when
further separators follow (a branch). -/
def spec_explore_entry (prefix_levels : Nat) (item : Str) : Str :=
  let segs := path_segments item
  let seg := segs.getD prefix_levels []
  if prefix_levels + 1 < segs.length then seg ++ ['/'] else seg

/-- Whether a string is nonempty and its first character is above `!` in
the character order (used as a decidable side condition on path
segments). -/
def headGtBang : Str → Bool
  | [] => false
  | c :: _ => decide ('!' < c)

/-- Plaintext payloads of the vault files: either a UTF-8 string (slot
contents) or a serialized Index map (`serde_json` round-trips the map, so
the embedding keeps it structured). -/
inductive PlainData : Type
  | strD (s : Str)
  | imapD (m : IndexMap)
  deriving DecidableEq, Repr

/-- Contents of a file in the lock directory: an `orion` AEAD ciphertext
(modelled ideally: it determines its key and plaintext and decrypts only
under that key), or arbitrary other bytes (`raw`), as written by outside
tampering, which authenticated decryption always rejects. -/
inductive FileBytes : Type
  | cipher (key : Str) (data : PlainData)
  | raw (id : Nat)
  deriving DecidableEq, Repr

/-- Rust `format!("{:0>32}", password)` from `src/secret.rs` lines 20 and
28: left-pad the password with `0` characters to a minimum width of 32
(longer passwords are kept unchanged). -/
def format_pad32 (password : Str) : Str :=
  List.replicate (32 - password.length) '0' ++ password

/-- Key material for `orion::aead::SecretKey::from_slice`, which demands
exactly 32 bytes and otherwise returns `UnknownCryptoError`. -/
def derive_key (password : Str) : Option Str :=
  let padded := format_pad32 password
  if padded.length = 32 then some padded else none

/-- From `src/secret.rs` lines 17-23 (`encrypt`): pad the password,
build the key, seal the data.  `none` is `UnknownCryptoError`. -/
def vault_encrypt (data : PlainData) (password : Str) : Option FileBytes :=
  (derive_key password).map (fun key => FileBytes.cipher key data)

/-- From `src/secret.rs` lines 25-31 (`decrypt`): pad the password, build
the key, open the ciphertext.  Opening fails (`none`, the
`UnknownCryptoError` of `aead::open`) when the key does not match or the
bytes are not a ciphertext sealed under it. -/
def vault_decrypt (file : FileBytes) (password : Str) : Option PlainData :=
  match derive_key password, file with
  | some key, FileBytes.cipher key' data => if key' = key then some data else none
  | _, _ => none

/-- The typed errors of `src/secret.rs` (`SecretError`), plus `Panicked`
for the `unwrap()` aborts of the storage layer (not part of the source
enum; never reached on the inputs of the claims). -/
inductive SecretError : Type
  | CrcMismatch (index : Nat)
  | IncorrectPassword
  | NonExistentPath
  | Panicked
  deriving DecidableEq, Repr

/-- Result of an engine operation. -/
inductive SecretResult (α : Type) : Type
  | ok (val : α)
  | err (e : SecretError)
  deriving DecidableEq, Repr

/-- From `src/secret.rs` lines 290-294 (`SecretInfo`). -/
structure SecretInfo : Type where
  path : Str
  contents : Str
  deriving DecidableEq, Repr

/-- One filesystem write of the engine, for ordering claims. -/
inductive FsEvent : Type
  | writeIndexFile
  | writeSlotFile (index : Nat)
  | removeSlotFile (index : Nat)
  | writeCrcFile
  deriving DecidableEq, Repr

/-- The lock directory `vault-lock`: the optional encrypted index file
`index.vlt`, the slot files `NNN.vlt` keyed by their parsed index, the
checksum ledger `index.crc` (kept parsed; an absent file and an empty map
read the same), and the trace of writes performed so far. -/
structure VaultState : Type where
  indexFile : Option FileBytes
  slotFiles : List (Nat × FileBytes)
  crcFile : List (Nat × Nat)
  trace : List FsEvent
  deriving DecidableEq, Repr

/-- The store before first use: no files on disk. -/
def emptyVault : VaultState :=
  { indexFile := none, slotFiles := [], crcFile := [], trace := [] }

/-- From `src/secret.rs` lines 33-44 (`read_index_file`): an absent index
file is an empty map; otherwise decrypt (`?` propagates the crypto error)
and parse.  A decrypted payload that is not a serialized map would make
`serde_json::from_str(..).unwrap()` abort (`Panicked`); no reachable state
stores one. -/
def read_index_file (st : VaultState) (password : Str) : SecretResult IndexMap :=
  match st.indexFile with
  | some contents_enc =>
    match vault_decrypt contents_enc password with
    | some (PlainData.imapD m) => .ok m
    | some (PlainData.strD _) => .err .Panicked
    | none => .err .IncorrectPassword
  | none => .ok []

/-- From `src/secret.rs` lines 46-55 (`write_index_file`): serialize,
encrypt (`?` propagates the crypto error), create the directory, write the
file. -/
def write_index_file (st : VaultState) (index_map : IndexMap) (password : Str) :
    SecretResult VaultState :=
  match vault_encrypt (PlainData.imapD index_map) password with
  | some contents_enc =>
    .ok { st with
          indexFile := some contents_enc,
          trace := st.trace ++ [FsEvent.writeIndexFile] }
  | none => .err .IncorrectPassword

/-- Stand-in for the `serde_json` text of a map, as `read_encrypted_file`
would return it if a slot file held an index ciphertext (no reachable
state does). -/
def json_repr (m : IndexMap) : Str :=
  List.intercalate [','] (m.map (fun kv => kv.1 ++ ':' :: Nat.toDigits 10 kv.2))

/-- From `src/secret.rs` lines 57-64 (`read_encrypted_file`): read the
slot file (`fs::read(..).unwrap()` aborts when it is missing), decrypt
(`?` propagates the crypto error), view as UTF-8.  Plaintexts here are
always UTF-8, so the `"<bytes>"` fallback of `from_utf8` never fires. -/
def read_encrypted_file (st : VaultState) (index : Nat) (password : Str) :
    SecretResult Str :=
  match mapGet st.slotFiles index with
  | none => .err .Panicked
  | some contents_enc =>
    match vault_decrypt contents_enc password with
    | some (PlainData.strD s) => .ok s
    | some (PlainData.imapD m) => .ok (json_repr m)
    | none => .err .IncorrectPassword

/-- From `src/secret.rs` lines 66-74 (`write_encrypted_file`): encrypt
(`?` propagates the crypto error), create the directory, write the slot
file. -/
def write_encrypted_file (st : VaultState) (index : Nat) (contents : Str)
    (password : Str) : SecretResult VaultState :=
  match vault_encrypt (PlainData.strD contents) password with
  | some contents_enc =>
    .ok { st with
          slotFiles := mapInsert st.slotFiles index contents_enc,
          trace := st.trace ++ [FsEvent.writeSlotFile index] }
  | none => .err .IncorrectPassword

/-- From `src/secret.rs` lines 76-79 (`remove_encrypted_file`):
`fs::remove_file(..).unwrap()` aborts when the slot file is missing. -/
def remove_encrypted_file (st : VaultState) (index : Nat) :
    SecretResult VaultState :=
  match mapGet st.slotFiles index with
  | some _ =>
    .ok { st with
          slotFiles := mapRemove st.slotFiles index,
          trace := st.trace ++ [FsEvent.removeSlotFile index] }
  | none => .err .Panicked

section Engine

-- The CRC32 (ISCSI) checksum of the `crc` crate, over the bytes of a
-- file; the engine is parametric in it, so the theorems hold for the
-- actual function.
variable (crcFn : FileBytes → Nat)

/-- From `src/secret.rs` lines 81-84 (`compute_crc`): checksum of the slot
file, or an `io::Error` (`none`) when it cannot be read. -/
def compute_crc (st : VaultState) (index : Nat) : Option Nat :=
  (mapGet st.slotFiles index).map crcFn

/-- From `src/secret.rs` lines 104-111 (`read_crc_file`): an absent ledger
is an empty map. -/
def read_crc_file (st : VaultState) : List (Nat × Nat) :=
  st.crcFile

/-- From `src/secret.rs` lines 113-118 (`write_crc_file`). -/
def write_crc_file (st : VaultState) (crc_map : List (Nat × Nat)) : VaultState :=
  { st with crcFile := crc_map, trace := st.trace ++ [FsEvent.writeCrcFile] }

/-- From `src/secret.rs` lines 120-137 (`check_crc`): compare the freshly
computed checksum of the slot file with the stored one; an unreadable
file, a missing ledger entry, or a differing value is `CrcMismatch`. -/
def check_crc (st : VaultState) (file_index : Nat) : SecretResult Nat :=
  let stored_crc_all := read_crc_file st
  match compute_crc crcFn st file_index with
  | some computed_crc =>
    match mapGet stored_crc_all file_index with
    | some stored_crc =>
      if stored_crc = computed_crc then .ok computed_crc
      else .err (.CrcMismatch file_index)
    | none => .err (.CrcMismatch file_index)
  | none => .err (.CrcMismatch file_index)

/-- From `src/secret.rs` lines 139-148 (`update_crc`): recompute the slot
checksum and store it, or drop the entry when the file is gone; rewrite
the ledger. -/
def update_crc (st : VaultState) (file_index : Nat) : VaultState :=
  let stored_crc_all := read_crc_file st
  match compute_crc crcFn st file_index with
  | some computed_crc =>
    write_crc_file st (mapInsert stored_crc_all file_index computed_crc)
  | none => write_crc_file st (mapRemove stored_crc_all file_index)

/-- From `src/secret.rs` lines 163-175 (`get_secret`): load the index
(password errors surface here), look the path up (absent is
`NonExistentPath`), check the slot checksum, decrypt the slot. -/
def get_secret (st : VaultState) (secret_path password : Str) :
    SecretResult SecretInfo :=
  match read_index_file st password with
  | .err e => .err e
  | .ok index_map =>
    match mapGet index_map secret_path with
    | some file_index =>
      match check_crc crcFn st file_index with
      | .err e => .err e
      | .ok _ =>
        match read_encrypted_file st file_index password with
        | .err e => .err e
        | .ok contents => .ok { path := secret_path, contents := contents }
    | none => .err .NonExistentPath

/-- From `src/secret.rs` lines 177-194 (`set_secret`): load the index; for
a fresh path reserve a slot and persist the index first; then write the
encrypted slot contents and update its checksum.  The returned state pairs
with the result; error returns keep the state written so far. -/
def set_secret (st : VaultState) (secret_path contents password : Str) :
    VaultState × SecretResult SecretInfo :=
  match read_index_file st password with
  | .err e => (st, .err e)
  | .ok index_map =>
    match mapGet index_map secret_path with
    | some file_index =>
      match write_encrypted_file st file_index contents password with
      | .err e => (st, .err e)
      | .ok st1 =>
        (update_crc crcFn st1 file_index,
         .ok { path := secret_path, contents := contents })
    | none =>
      let rsv := reserve_index index_map secret_path
      match write_index_file st rsv.2 password with
      | .err e => (st, .err e)
      | .ok st1 =>
        match write_encrypted_file st1 rsv.1 contents password with
        | .err e => (st1, .err e)
        | .ok st2 =>
          (update_crc crcFn st2 rsv.1,
           .ok { path := secret_path, contents := contents })

/-- From `src/secret.rs` lines 196-213 (`remove_secret`): load the index;
an absent path is `NonExistentPath` with no effect; otherwise drop the
mapping, persist the index, delete the slot file, update (remove) its
checksum entry. -/
def remove_secret (st : VaultState) (secret_path password : Str) :
    VaultState × SecretResult SecretInfo :=
  match read_index_file st password with
  | .err e => (st, .err e)
  | .ok index_map =>
    match mapGet index_map secret_path with
    | some file_index =>
      match write_index_file st (mapRemove index_map secret_path) password with
      | .err e => (st, .err e)
      | .ok st1 =>
        match remove_encrypted_file st1 file_index with
        | .err e => (st1, .err e)
        | .ok st2 =>
          (update_crc crcFn st2 file_index,
           .ok { path := secret_path, contents := [] })
    | none => (st, .err .NonExistentPath)

end Engine

/-- A checksum function for concrete witnesses: ciphertexts hash to `0`,
raw bytes to their id plus one (any function works; the engine theorems
are parametric in it). -/
def rawCrc : FileBytes → Nat
  | .cipher _ _ => 0
  | .raw id => id + 1

/-- A directory tree, modelling the plaintext working directory
(`vault-unlock`) that `src/glob.rs` operates on.  Entries appear in
`fs::read_dir` order; file contents are abstracted to an id. -/
inductive FsNode : Type
  | file (id : Nat)
  | dir (entries : List (Str × FsNode))

instance : Inhabited FsNode := ⟨.file 0⟩

/-- A path relative to the working directory, as its components. -/
abbrev FsPath := List Str

/-- The macOS artifact name (`removables` of `src/glob.rs` line 43). -/
def dsStore : Str := ".DS_Store".data

/-- Resolve a relative path inside a tree. -/
def lookupNode : FsNode → FsPath → Option FsNode
  | t, [] => some t
  | .file _, _ :: _ => none
  | .dir es, a :: rest =>
    match mapGet es a with
    | some child => lookupNode child rest
    | none => none

/-- The file at a path, when there is one. -/
def fileAt (t : FsNode) (p : FsPath) : Option Nat :=
  match lookupNode t p with
  | some (.file id) => some id
  | _ => none

/-- From `src/glob.rs` lines 7-21 (`list_files`): the files directly in
the given directory (a missing or non-directory path lists nothing),
already as working-directory-relative paths, as the caller's
`strip_prefix` makes them. -/
def list_files (t : FsNode) (dirPath : FsPath) : List FsPath :=
  match lookupNode t dirPath with
  | some (.dir es) =>
    es.filterMap (fun e =>
      match e.2 with
      | .file _ => some (dirPath ++ [e.1])
      | .dir _ => none)
  | _ => []

/-- Recursive walk over directory entries (`src/glob.rs` lines 25-37,
`walk_dir`): directories expand in place in entry order. -/
def walk_entries (base : FsPath) : List (Str × FsNode) → List FsPath
  | [] => []
  | (name, .file _) :: rest => (base ++ [name]) :: walk_entries base rest
  | (name, .dir es) :: rest =>
    walk_entries (base ++ [name]) es ++ walk_entries base rest

/-- From `src/glob.rs` lines 25-37 (`walk_dir`): every file below the
given directory, recursively. -/
def walk_dir (t : FsNode) (dirPath : FsPath) : List FsPath :=
  match lookupNode t dirPath with
  | some (.dir es) => walk_entries dirPath es
  | _ => []

/-- From `src/glob.rs` lines 42-63 (`remove_empty_dirs`), on the entries
of one directory: `.DS_Store` files are removed, subdirectories are pruned
recursively and dropped when `fs::remove_dir` succeeds on them (that is,
when nothing remains inside), other files stay. -/
def pruneEntries : List (Str × FsNode) → List (Str × FsNode)
  | [] => []
  | (name, .file id) :: rest =>
    if name = dsStore then pruneEntries rest
    else (name, .file id) :: pruneEntries rest
  | (name, .dir es) :: rest =>
    match pruneEntries es with
    | [] => pruneEntries rest
    | e :: es' => (name, .dir (e :: es')) :: pruneEntries rest

/-- `remove_empty_dirs` applied to the working directory itself: `none`
when the directory ended empty and was removed. -/
def remove_empty_dirs (es : List (Str × FsNode)) : Option (List (Str × FsNode)) :=
  match pruneEntries es with
  | [] => none
  | e :: es' => some (e :: es')

/-- Rust `Path::components` of a relative pattern: the nonempty segments
(the claims' pattern language has no `.` or `..` components and no root,
matching the glob dialect of the spec). -/
def path_comps (s : Str) : List Str :=
  (path_segments s).filter (fun seg => seg ≠ [])

/-- Components joined back into the displayed relative path
(`PathBuf::to_path_str`). -/
def join_path (p : FsPath) : Str :=
  List.intercalate ['/'] p

/-- From `src/glob.rs` lines 72-104 (`get_matching_files`): for a starred
pattern, strip the stars, list (`*`) or walk (`**`) the parent directory
of the stripped pattern under the working directory, keep the relative
paths that start with the stripped pattern as strings, and sort; an
unstarred pattern matches exactly itself when it is a file. -/
def get_matching_files (pattern : Str) (root : FsNode) : List FsPath :=
  if ends_with pattern ['*'] then
    let pre := trim_trailing_stars pattern
    let path_parent := (path_comps pre).dropLast
    let file_list :=
      if ends_with pattern ['*', '*'] then walk_dir root path_parent
      else list_files root path_parent
    into_sorted (file_list.filter (fun rel => starts_with (join_path rel) pre))
  else
    match lookupNode root (path_comps pattern) with
    | some (.file _) => [path_comps pattern]
    | _ => []

/-- Delete the file at a path (`fs::remove_file` on a matched path). -/
def remove_file_at : FsNode → FsPath → FsNode
  | t, [] => t
  | .file id, _ :: _ => .file id
  | .dir es, [a] =>
    .dir (es.filter (fun e =>
      match e.2 with
      | .file _ => e.1 ≠ a
      | .dir _ => True))
  | .dir es, a :: b :: rest =>
    .dir (es.map (fun e =>
      if e.1 = a then (e.1, remove_file_at e.2 (b :: rest)) else e))

/-- From `src/glob.rs` lines 114-123 (`remove_matching_files`): remove
every matched file, prune the directories left empty (removing the system
cache files met on the way), and return the sorted matched relative
paths.  The resulting tree is `none` when the whole working directory was
removed. -/
def remove_matching_files (pattern : Str) (es : List (Str × FsNode)) :
    Option (List (Str × FsNode)) × List FsPath :=
  let matched := get_matching_files pattern (.dir es)
  let root1 := matched.foldl remove_file_at (.dir es)
  let pruned :=
    match root1 with
    | .dir es1 => remove_empty_dirs es1
    | .file _ => some es
  (pruned, into_sorted matched)

/-- The file at a path under an optional working directory (`none`
models the case where the whole working directory was removed, so no
file remains under it). -/
def fileAtRoot (r : Option (List (Str × FsNode))) (p : FsPath) : Option Nat :=
  match r with
  | some es => fileAt (.dir es) p
  | none => none

/-- No directory in the entry list is empty, recursively: the state
`remove_empty_dirs` leaves behind (every empty directory met was
removed by `fs::remove_dir`). -/
def no_empty_dirs : List (Str × FsNode) → Bool
  | [] => true
  | (_, .file _) :: rest => no_empty_dirs rest
  | (_, .dir cs) :: rest =>
    !cs.isEmpty && no_empty_dirs cs && no_empty_dirs rest

/-- Well-formedness of a tree: no directory lists the same name twice
(true of every real directory), checked recursively. -/
def wellFormed : FsNode → Bool
  | .file _ => true
  | .dir [] => true
  | .dir ((name, child) :: rest) =>
    !(rest.any (fun e2 => e2.1 = name)) && wellFormed child && wellFormed (.dir rest)

/-! ## Association map lemmas -/

section AssocMapLemmas

variable {κ ν : Type} [DecidableEq κ]

theorem mapGet_mapInsert_self (l : List (κ × ν)) (k : κ) (v : ν) :
    mapGet (mapInsert l k v) k = some v := by
  induction l with
  | nil => simp [mapGet, mapInsert]
  | cons e rest ih =>
    by_cases h : e.1 = k
    · simp [mapGet, mapInsert, h]
    · simp [mapGet, mapInsert, h, ih]

theorem mapGet_mapInsert_ne (l : List (κ × ν)) (k k' : κ) (v : ν) (h : k' ≠ k) :
    mapGet (mapInsert l k v) k' = mapGet l k' := by
  induction l with
  | nil => simp [mapGet, mapInsert, Ne.symm h]
  | cons e rest ih =>
    by_cases he : e.1 = k
    · rw [mapInsert, if_pos he, mapGet, if_neg (Ne.symm h), mapGet, he,
        if_neg (Ne.symm h)]
    · rw [mapInsert, if_neg he, mapGet, mapGet]
      by_cases he' : e.1 = k'
      · rw [if_pos he', if_pos he']
      · rw [if_neg he', if_neg he', ih]

theorem mapGet_mapRemove_self (l : List (κ × ν)) (k : κ) :
    mapGet (mapRemove l k) k = none := by
  induction l with
  | nil => simp [mapGet, mapRemove]
  | cons e rest ih =>
    by_cases h : e.1 = k
    · simpa [mapRemove, h] using ih
    · simpa [mapRemove, List.filter_cons, h, mapGet] using ih

theorem mapGet_mapRemove_ne (l : List (κ × ν)) (k k' : κ) (h : k' ≠ k) :
    mapGet (mapRemove l k) k' = mapGet l k' := by
  induction l with
  | nil => simp [mapGet, mapRemove]
  | cons e rest ih =>
    by_cases he : e.1 = k
    · simpa [mapRemove, List.filter_cons, he, mapGet, Ne.symm h] using ih
    · by_cases he' : e.1 = k'
      · simp [mapRemove, List.filter_cons, he, mapGet, he', h]
      · simpa [mapRemove, List.filter_cons, he, mapGet, he'] using ih

end AssocMapLemmas

/-! ## Slot allocation (claim C3) -/

/-- The scanning loop of `get_minimum_available_value` over a sorted
duplicate-free list of values bounded below by the start returns the least
value at or above the start that the list does not contain. -/
theorem minAvailLoop_least (l : List Nat) :
    ∀ (s : Nat), List.Sorted (· ≤ ·) l → l.Nodup → (∀ v ∈ l, s ≤ v) →
      minAvailLoop s l ∉ l ∧ s ≤ minAvailLoop s l ∧
        ∀ k, s ≤ k → k < minAvailLoop s l → k ∈ l := by
  induction l with
  | nil =>
    intro s _ _ _
    refine ⟨by simp, le_refl s, ?_⟩
    intro k hk hk2
    simp [minAvailLoop] at hk2
    omega
  | cons v rest ih =>
    intro s hs hnd hlb
    have hsrest : List.Sorted (· ≤ ·) rest := hs.of_cons
    have hndrest : rest.Nodup := hnd.of_cons
    by_cases hv : s = v
    · subst hv
      have hlb2 : ∀ w ∈ rest, s + 1 ≤ w := by
        intro w hw
        have h1 : s ≤ w := (List.sorted_cons.mp hs).1 w hw
        have h2 : s ≠ w := fun h => (List.nodup_cons.mp hnd).1 (h ▸ hw)
        omega
      obtain ⟨ih1, ih2, ih3⟩ := ih (s + 1) hsrest hndrest hlb2
      rw [minAvailLoop, if_pos rfl]
      refine ⟨?_, by omega, ?_⟩
      · intro hmem
        rcases List.mem_cons.mp hmem with h | h
        · omega
        · exact ih1 h
      · intro k hk hk2
        rcases Nat.eq_or_lt_of_le hk with h | h
        · exact List.mem_cons.mpr (Or.inl h.symm)
        · exact List.mem_cons.mpr (Or.inr (ih3 k (by omega) hk2))
    · rw [minAvailLoop, if_neg hv]
      have hsv : s < v := lt_of_le_of_ne (hlb v (List.mem_cons_self v rest)) hv
      refine ⟨?_, le_refl s, ?_⟩
      · intro hmem
        rcases List.mem_cons.mp hmem with h | h
        · exact hv h
        · have := (List.sorted_cons.mp hs).1 s h
          omega
      · intro k hk hk2
        omega

/-- Supporting result for claim C3: `get_minimum_available_value` of
`src/utils.rs` computes the least slot id at or above the starting value
`1` that is not among the values of the Index, whenever the values are
duplicate-free and at least `1` (true of every Index the engine builds
with it). -/
theorem get_minimum_available_value_least (m : IndexMap)
    (hnd : (mapValues m).Nodup) (hpos : ∀ v ∈ mapValues m, 1 ≤ v) :
    get_minimum_available_value m ∉ mapValues m ∧
      1 ≤ get_minimum_available_value m ∧
      ∀ k, 1 ≤ k → k < get_minimum_available_value m → k ∈ mapValues m := by
  have hperm : (into_sorted (mapValues m)).Perm (mapValues m) :=
    List.perm_insertionSort (· ≤ ·) (mapValues m)
  have hs : List.Sorted (· ≤ ·) (into_sorted (mapValues m)) :=
    List.sorted_insertionSort (· ≤ ·) (mapValues m)
  have hnd2 : (into_sorted (mapValues m)).Nodup := hperm.nodup_iff.mpr hnd
  have hlb : ∀ v ∈ into_sorted (mapValues m), 1 ≤ v := by
    intro v hv
    exact hpos v (hperm.mem_iff.mp hv)
  obtain ⟨h1, h2, h3⟩ := minAvailLoop_least (into_sorted (mapValues m)) 1 hs hnd2 hlb
  refine ⟨fun h => h1 (hperm.mem_iff.mpr h), h2, ?_⟩
  intro k hk1 hk2
  exact hperm.mem_iff.mp (h3 k hk1 hk2)

/-- Claim C3: the two allocation routines the repository carries disagree,
and the one in `src/secret.rs` (`reserve_index`) contradicts the claimed
behavior: on an Index with values `{1, 2, 4}` it hands out slot `2`, which
is already occupied, instead of the first gap `3`; on an empty Index it
starts at `0`.  `get_minimum_available_value` of `src/utils.rs` returns
`3` and starts at `1`, exactly as the claim states. -/
theorem reserve_index_diverges_from_min_free :
    (reserve_index [("a".data, 1), ("b".data, 2), ("c".data, 4)] "d".data).1 = 2
    ∧ 2 ∈ mapValues [("a".data, 1), ("b".data, 2), ("c".data, 4)]
    ∧ (reserve_index [("a".data, 1), ("b".data, 2), ("c".data, 4)] "d".data).1 ≠ 3
    ∧ (reserve_index [] "d".data).1 = 0
    ∧ get_minimum_available_value [("a".data, 1), ("b".data, 2), ("c".data, 4)] = 3
    ∧ get_minimum_available_value [] = 1
    ∧ get_minimum_available_value [("a".data, 1), ("b".data, 2), ("c".data, 3)] = 4 := by
  decide

/-! ## SameLevel pattern filtering (claim C5) -/

theorem ends_with_concat (l : Str) (a b : Char) :
    ends_with (l ++ [a]) [b] = (a = b) := by
  by_cases h : a = b
  · subst h
    simp [ends_with, List.isPrefixOf]
  · have h2 : ¬ b = a := fun hh => h hh.symm
    simp [ends_with, List.isPrefixOf, h, h2]

theorem ends_with_concat_two (l : Str) (a b c : Char) :
    ends_with (l ++ [a]) [b, c] = ((a = c) && ends_with l [b]) := by
  by_cases h : a = c
  · subst h
    simp [ends_with, List.isPrefixOf]
  · have h2 : ¬ c = a := fun hh => h hh.symm
    simp [ends_with, List.isPrefixOf, h, h2]

/-- Claim C5: for a `SameLevel` pattern `pre ++ "*"` (the pattern string
does not end in a second star), `filter_matching` of `src/glob.rs` keeps
exactly the keys that start with `pre` and have the same number of `/`
separators as `pre`, sorted; in particular the keys
`{d1/f1, d1/f2, d1/s/f3, d2/f1}` under `d1/*` give `[d1/f1, d1/f2]`. -/
theorem filter_matching_same_level (items : List Str) (pre : Str)
    (hp : ends_with pre ['*'] = false) :
    (∀ k, k ∈ filter_matching items (pre ++ ['*']) ↔
        (k ∈ items ∧ starts_with k pre = true ∧ count_levels k = count_levels pre))
    ∧ List.Sorted (· ≤ ·) (filter_matching items (pre ++ ['*']))
    ∧ filter_matching ["d1/f1".data, "d1/f2".data, "d1/s/f3".data, "d2/f1".data]
        "d1/*".data = ["d1/f1".data, "d1/f2".data] := by
  have h2 : ends_with (pre ++ ['*']) ['*', '*'] = false := by
    rw [ends_with_concat_two, hp]
    simp
  have h1 : ends_with (pre ++ ['*']) ['*'] = true := by
    rw [ends_with_concat]
  have hdrop : (pre ++ ['*']).dropLast = pre := List.dropLast_concat
  have hunf : filter_matching items (pre ++ ['*']) =
      into_sorted (items.filter
        (fun item => starts_with item pre &&
          (count_levels item = count_levels pre))) := by
    simp only [filter_matching, h2, h1, hdrop, Bool.false_eq_true, if_false, if_true]
  refine ⟨?_, ?_, by decide⟩
  · intro k
    rw [hunf, into_sorted, List.mem_insertionSort, List.mem_filter]
    simp
  · rw [hunf]
    exact List.sorted_insertionSort (· ≤ ·) _

/-- Witness for claim C5 at the concrete keys of the spec example. -/
theorem filter_matching_same_level_witness :
    List.Sorted (· ≤ ·)
      (filter_matching ["d1/f1".data, "d1/f2".data, "d1/s/f3".data, "d2/f1".data]
        ("d1/".data ++ ['*'])) :=
  (filter_matching_same_level
    ["d1/f1".data, "d1/f2".data, "d1/s/f3".data, "d2/f1".data]
    "d1/".data (by decide)).2.1

/-! ## Engine lemmas -/

theorem read_index_file_ok_cases (st : VaultState) (pw : Str) (m : IndexMap)
    (h : read_index_file st pw = .ok m) :
    (st.indexFile = none ∧ m = []) ∨
      ∃ key, derive_key pw = some key ∧
        st.indexFile = some (.cipher key (.imapD m)) := by
  unfold read_index_file at h
  cases hif : st.indexFile with
  | none =>
    rw [hif] at h
    cases h
    exact Or.inl ⟨rfl, rfl⟩
  | some bytes =>
    rw [hif] at h
    dsimp only at h
    refine Or.inr ?_
    unfold vault_decrypt at h
    cases hk : derive_key pw with
    | none => rw [hk] at h; cases h
    | some key =>
      rw [hk] at h
      cases bytes with
      | raw id => dsimp only at h; cases h
      | cipher key' data =>
        dsimp only at h
        by_cases hkey : key' = key
        · rw [if_pos hkey] at h
          cases data with
          | strD s => cases h
          | imapD m' =>
            dsimp only at h
            cases h
            exact ⟨key, rfl, by rw [hkey]⟩
        · rw [if_neg hkey] at h
          cases h

theorem set_secret_ok_struct (crcFn : FileBytes → Nat) (st st₂ : VaultState)
    (p c pw : Str) (info : SecretInfo)
    (hset : set_secret crcFn st p c pw = (st₂, .ok info)) :
    ∃ (m : IndexMap) (key : Str) (i : Nat),
      read_index_file st pw = .ok m ∧ derive_key pw = some key ∧
      info = { path := p, contents := c } ∧
      ((mapGet m p = some i ∧
        st₂ = { st with
                slotFiles := mapInsert st.slotFiles i (.cipher key (.strD c)),
                crcFile := mapInsert st.crcFile i (crcFn (.cipher key (.strD c))),
                trace := st.trace ++ [.writeSlotFile i, .writeCrcFile] })
       ∨ (mapGet m p = none ∧ i = (reserve_index m p).1 ∧
        st₂ = { st with
                indexFile := some (.cipher key (.imapD (reserve_index m p).2)),
                slotFiles := mapInsert st.slotFiles i (.cipher key (.strD c)),
                crcFile := mapInsert st.crcFile i (crcFn (.cipher key (.strD c))),
                trace := st.trace ++
                  [.writeIndexFile, .writeSlotFile i, .writeCrcFile] })) := by
  unfold set_secret at hset
  cases hread : read_index_file st pw with
  | err e => rw [hread] at hset; cases hset
  | ok m =>
    rw [hread] at hset
    dsimp only at hset
    cases hget : mapGet m p with
    | some i =>
      rw [hget] at hset
      dsimp only at hset
      unfold write_encrypted_file vault_encrypt at hset
      cases hk : derive_key pw with
      | none => rw [hk] at hset; cases hset
      | some key =>
        rw [hk] at hset
        simp only [Option.map_some'] at hset
        injection hset with h1 h2
        injection h2 with h2
        refine ⟨m, key, i, rfl, rfl, h2.symm, Or.inl ⟨hget, ?_⟩⟩
        rw [← h1]
        simp [update_crc, compute_crc, write_crc_file, read_crc_file,
          mapGet_mapInsert_self, List.append_assoc]
    | none =>
      rw [hget] at hset
      dsimp only at hset
      unfold write_index_file vault_encrypt at hset
      cases hk : derive_key pw with
      | none => rw [hk] at hset; cases hset
      | some key =>
        rw [hk] at hset
        simp only [Option.map_some'] at hset
        unfold write_encrypted_file vault_encrypt at hset
        rw [hk] at hset
        simp only [Option.map_some'] at hset
        injection hset with h1 h2
        injection h2 with h2
        refine ⟨m, key, (reserve_index m p).1, rfl, rfl, h2.symm,
          Or.inr ⟨hget, rfl, ?_⟩⟩
        rw [← h1]
        simp [update_crc, compute_crc, write_crc_file, read_crc_file,
          mapGet_mapInsert_self, List.append_assoc]

theorem derive_key_eq (pw key : Str) (h : derive_key pw = some key) :
    key = format_pad32 pw := by
  unfold derive_key at h
  by_cases hl : (format_pad32 pw).length = 32
  · rw [if_pos hl] at h
    exact (Option.some.injEq .. ▸ h).symm
  · rw [if_neg hl] at h
    cases h

theorem read_index_file_congr (st st' : VaultState) (pw : Str)
    (h : st'.indexFile = st.indexFile) :
    read_index_file st' pw = read_index_file st pw := by
  unfold read_index_file
  rw [h]

theorem read_index_file_cipher (st : VaultState) (pw key : Str) (m : IndexMap)
    (hk : derive_key pw = some key)
    (hif : st.indexFile = some (.cipher key (.imapD m))) :
    read_index_file st pw = .ok m := by
  unfold read_index_file vault_decrypt
  rw [hif, hk]
  dsimp only
  rw [if_pos rfl]

theorem update_crc_indexFile (crcFn : FileBytes → Nat) (st : VaultState) (i : Nat) :
    (update_crc crcFn st i).indexFile = st.indexFile := by
  unfold update_crc write_crc_file
  cases compute_crc crcFn st i <;> rfl

theorem update_crc_slotFiles (crcFn : FileBytes → Nat) (st : VaultState) (i : Nat) :
    (update_crc crcFn st i).slotFiles = st.slotFiles := by
  unfold update_crc write_crc_file
  cases compute_crc crcFn st i <;> rfl

/-- Claim C1: a successful `set(p, c, pw)` followed by `get(p, pw)` on the
resulting store returns exactly the contents `c` (with the path), whatever
the starting state. -/
theorem set_then_get_roundtrip (crcFn : FileBytes → Nat) (st st₂ : VaultState)
    (p c pw : Str) (info : SecretInfo)
    (hset : set_secret crcFn st p c pw = (st₂, .ok info)) :
    get_secret crcFn st₂ p pw = .ok { path := p, contents := c } := by
  obtain ⟨m, key, i, hread, hk, hinfo, hcase⟩ :=
    set_secret_ok_struct crcFn st st₂ p c pw info hset
  rcases hcase with ⟨hget, hst⟩ | ⟨hget, hi, hst⟩
  · subst hst
    have h1 : read_index_file
        { st with
          slotFiles := mapInsert st.slotFiles i (.cipher key (.strD c)),
          crcFile := mapInsert st.crcFile i (crcFn (.cipher key (.strD c))),
          trace := st.trace ++ [.writeSlotFile i, .writeCrcFile] } pw = .ok m :=
      (read_index_file_congr st _ pw rfl).trans hread
    unfold get_secret
    rw [h1]
    dsimp only
    rw [hget]
    dsimp only
    unfold check_crc compute_crc read_crc_file
    simp only [mapGet_mapInsert_self, Option.map_some']
    rw [if_pos trivial]
    unfold read_encrypted_file
    simp only [mapGet_mapInsert_self]
    unfold vault_decrypt
    rw [hk]
    dsimp only
    rw [if_pos rfl]
  · subst hst
    have h1 : read_index_file
        { st with
          indexFile := some (.cipher key (.imapD (reserve_index m p).2)),
          slotFiles := mapInsert st.slotFiles i (.cipher key (.strD c)),
          crcFile := mapInsert st.crcFile i (crcFn (.cipher key (.strD c))),
          trace := st.trace ++ [.writeIndexFile, .writeSlotFile i, .writeCrcFile] }
        pw = .ok (reserve_index m p).2 :=
      read_index_file_cipher _ pw key _ hk rfl
    unfold get_secret
    rw [h1]
    dsimp only
    have h2 : mapGet (reserve_index m p).2 p = some i := by
      rw [hi]
      unfold reserve_index
      exact mapGet_mapInsert_self ..
    rw [h2]
    dsimp only
    unfold check_crc compute_crc read_crc_file
    simp only [mapGet_mapInsert_self, Option.map_some']
    rw [if_pos trivial]
    unfold read_encrypted_file
    simp only [mapGet_mapInsert_self]
    unfold vault_decrypt
    rw [hk]
    dsimp only
    rw [if_pos rfl]

/-- Witness for claim C1: set then get on the empty store. -/
theorem set_then_get_roundtrip_witness :
    get_secret rawCrc (set_secret rawCrc emptyVault "x".data "v".data "1".data).1
      "x".data "1".data = .ok { path := "x".data, contents := "v".data } :=
  set_then_get_roundtrip rawCrc emptyVault
    (set_secret rawCrc emptyVault "x".data "v".data "1".data).1
    "x".data "v".data "1".data
    { path := "x".data, contents := "v".data } (by decide)

/-- Claim C2 (amended): after a successful `set(p, c, pw1)`, a `get(p, pw2)`
with a password whose zero-padded 32-character key differs from that of
`pw1` fails with `IncorrectPassword`: authenticated decryption of the
index rejects the wrong key. -/
theorem wrong_password_incorrect (crcFn : FileBytes → Nat) (st st₂ : VaultState)
    (p c pw1 pw2 : Str) (info : SecretInfo)
    (hset : set_secret crcFn st p c pw1 = (st₂, .ok info))
    (hpw : format_pad32 pw1 ≠ format_pad32 pw2) :
    get_secret crcFn st₂ p pw2 = .err .IncorrectPassword := by
  obtain ⟨m, key, i, hread, hk, hinfo, hcase⟩ :=
    set_secret_ok_struct crcFn st st₂ p c pw1 info hset
  have hkey1 : key = format_pad32 pw1 := derive_key_eq pw1 key hk
  have hif : ∃ d, st₂.indexFile = some (.cipher key d) := by
    rcases hcase with ⟨hget, hst⟩ | ⟨hget, hi, hst⟩
    · rcases read_index_file_ok_cases st pw1 m hread with ⟨hnone, hm⟩ | ⟨key', hk', hcip⟩
      · subst hm
        rw [mapGet] at hget
        cases hget
      · have : key' = key := by
          rw [hk'] at hk
          exact Option.some.inj hk
        subst this
        exact ⟨.imapD m, by rw [hst]; exact hcip⟩
    · exact ⟨.imapD (reserve_index m p).2, by rw [hst]⟩
  obtain ⟨d, hif⟩ := hif
  unfold get_secret read_index_file vault_decrypt
  rw [hif]
  dsimp only
  cases hk2 : derive_key pw2 with
  | none => rfl
  | some key2 =>
    have hkey2 : key2 = format_pad32 pw2 := derive_key_eq pw2 key2 hk2
    dsimp only
    rw [if_neg (by rw [hkey1, hkey2]; exact hpw)]

/-- Witness for the amended claim C2. -/
theorem wrong_password_incorrect_witness :
    get_secret rawCrc (set_secret rawCrc emptyVault "x".data "v".data "1".data).1
      "x".data "2".data = .err .IncorrectPassword :=
  wrong_password_incorrect rawCrc emptyVault
    (set_secret rawCrc emptyVault "x".data "v".data "1".data).1
    "x".data "v".data "1".data "2".data
    { path := "x".data, contents := "v".data } (by decide) (by decide)

/-- Counterexample to claim C2 as stated: the password `"01"` differs from
`"1"`, yet after `set("x", "v", "1")` a `get("x", "01")` succeeds and
returns the contents, because `format!("{:0>32}", ..)` pads both to the
same 32-character key.  (The plaintext returned is still the correct one:
decryption is never silently wrong.) -/
theorem wrong_password_padding_collision :
    "01".data ≠ "1".data
    ∧ format_pad32 "01".data = format_pad32 "1".data
    ∧ (set_secret rawCrc emptyVault "x".data "v".data "1".data).2
        = .ok { path := "x".data, contents := "v".data }
    ∧ get_secret rawCrc (set_secret rawCrc emptyVault "x".data "v".data "1".data).1
        "x".data "01".data
        = .ok { path := "x".data, contents := "v".data } := by
  refine ⟨by decide, by decide, by decide, by decide⟩

/-- Claim C10: with no index file on disk, loading the Index succeeds with
the empty map under every password, and `get` of any path is
`NonExistentPath` (never `IncorrectPassword`). -/
theorem absent_index_get_nonexistent (crcFn : FileBytes → Nat) (st : VaultState)
    (p pw : Str) (hno : st.indexFile = none) :
    read_index_file st pw = .ok []
    ∧ get_secret crcFn st p pw = .err .NonExistentPath := by
  have h1 : read_index_file st pw = .ok [] := by
    unfold read_index_file
    rw [hno]
  refine ⟨h1, ?_⟩
  unfold get_secret
  rw [h1]
  dsimp only
  rw [mapGet]

/-- Witness for claim C10 on the empty store. -/
theorem absent_index_get_nonexistent_witness :
    get_secret rawCrc emptyVault "x".data "pw".data = .err .NonExistentPath :=
  (absent_index_get_nonexistent rawCrc emptyVault "x".data "pw".data rfl).2

/-- Claim C8: a successful `set` on a path with no existing slot writes the
encrypted index file first, then the slot file, then the checksum ledger:
the write trace extends by exactly these events in this order. -/
theorem set_fresh_trace_index_before_slot (crcFn : FileBytes → Nat)
    (st st₂ : VaultState) (m : IndexMap) (p c pw : Str) (info : SecretInfo)
    (hread : read_index_file st pw = .ok m) (hfresh : mapGet m p = none)
    (hset : set_secret crcFn st p c pw = (st₂, .ok info)) :
    st₂.trace = st.trace ++
      [FsEvent.writeIndexFile, FsEvent.writeSlotFile (reserve_index m p).1,
       FsEvent.writeCrcFile] := by
  obtain ⟨m', key, i, hread', hk, hinfo, hcase⟩ :=
    set_secret_ok_struct crcFn st st₂ p c pw info hset
  have hm : m' = m := by
    rw [hread] at hread'
    exact (SecretResult.ok.inj hread').symm
  subst hm
  rcases hcase with ⟨hget, hst⟩ | ⟨hget, hi, hst⟩
  · rw [hget] at hfresh
    cases hfresh
  · rw [hst, hi]

/-- Witness for claim C8 on the empty store. -/
theorem set_fresh_trace_index_before_slot_witness :
    (set_secret rawCrc emptyVault "x".data "v".data "1".data).1.trace =
      emptyVault.trace ++
        [FsEvent.writeIndexFile,
         FsEvent.writeSlotFile (reserve_index [] "x".data).1,
         FsEvent.writeCrcFile] :=
  set_fresh_trace_index_before_slot rawCrc emptyVault
    (set_secret rawCrc emptyVault "x".data "v".data "1".data).1 []
    "x".data "v".data "1".data { path := "x".data, contents := "v".data }
    (by decide) (by decide) (by decide)

/-- Post-state of a successful `set_secret`: the index decrypts under the
same password to a map sending the path to a slot `i`; slot file `i` holds
the fresh ciphertext of the contents, and the ledger holds its checksum. -/
theorem set_secret_post (crcFn : FileBytes → Nat) (st st₂ : VaultState)
    (p c pw : Str) (info : SecretInfo)
    (hset : set_secret crcFn st p c pw = (st₂, .ok info)) :
    ∃ (M : IndexMap) (key : Str) (i : Nat),
      derive_key pw = some key ∧
      read_index_file st₂ pw = .ok M ∧
      mapGet M p = some i ∧
      mapGet st₂.slotFiles i = some (.cipher key (.strD c)) ∧
      mapGet st₂.crcFile i = some (crcFn (.cipher key (.strD c))) := by
  obtain ⟨m, key, i, hread, hk, hinfo, hcase⟩ :=
    set_secret_ok_struct crcFn st st₂ p c pw info hset
  rcases hcase with ⟨hget, hst⟩ | ⟨hget, hi, hst⟩
  · refine ⟨m, key, i, hk, ?_, hget, ?_, ?_⟩
    · rw [hst]
      exact (read_index_file_congr st _ pw rfl).trans hread
    · rw [hst]
      exact mapGet_mapInsert_self ..
    · rw [hst]
      exact mapGet_mapInsert_self ..
  · refine ⟨(reserve_index m p).2, key, i, hk, ?_, ?_, ?_, ?_⟩
    · rw [hst]
      exact read_index_file_cipher _ pw key _ hk rfl
    · rw [hi]
      unfold reserve_index
      exact mapGet_mapInsert_self ..
    · rw [hst]
      exact mapGet_mapInsert_self ..
    · rw [hst]
      exact mapGet_mapInsert_self ..

/-- A successful removal of a present path, followed by a `get` of the
same path, yields `NonExistentPath`. -/
theorem remove_then_get_nonexistent (crcFn : FileBytes → Nat) (st : VaultState)
    (M : IndexMap) (p pw key : Str) (i : Nat) (b : FileBytes)
    (hm : read_index_file st pw = .ok M)
    (hget : mapGet M p = some i)
    (hk : derive_key pw = some key)
    (hslot : mapGet st.slotFiles i = some b) :
    ∃ st₃ info₃, remove_secret crcFn st p pw = (st₃, .ok info₃)
      ∧ get_secret crcFn st₃ p pw = .err .NonExistentPath := by
  unfold remove_secret
  rw [hm]
  dsimp only
  rw [hget]
  dsimp only
  unfold write_index_file vault_encrypt
  rw [hk]
  simp only [Option.map_some']
  unfold remove_encrypted_file
  dsimp only
  rw [hslot]
  dsimp only
  refine ⟨_, _, rfl, ?_⟩
  have hif3 : (update_crc crcFn
      { st with
        indexFile := some (.cipher key (.imapD (mapRemove M p))),
        slotFiles := mapRemove st.slotFiles i,
        trace := (st.trace ++ [FsEvent.writeIndexFile]) ++ [FsEvent.removeSlotFile i] }
      i).indexFile = some (.cipher key (.imapD (mapRemove M p))) := by
    rw [update_crc_indexFile]
  unfold get_secret
  rw [read_index_file_cipher _ pw key _ hk hif3]
  dsimp only
  rw [mapGet_mapRemove_self]

/-- Claim C7: a path absent from the Index makes `get` and `remove` return
`NonExistentPath`, `remove` leaving the state (index file, slot files,
ledger, and even the write trace) untouched; and after a successful `set`
of a path, removing it and getting it again returns `NonExistentPath`. -/
theorem missing_and_removed_nonexistent (crcFn : FileBytes → Nat)
    (st : VaultState) (m : IndexMap) (p pw : Str)
    (hread : read_index_file st pw = .ok m) (hmiss : mapGet m p = none)
    (st₁ st₂ : VaultState) (p₂ c₂ pw₂ : Str) (info₂ : SecretInfo)
    (hset : set_secret crcFn st₁ p₂ c₂ pw₂ = (st₂, .ok info₂)) :
    get_secret crcFn st p pw = .err .NonExistentPath
    ∧ remove_secret crcFn st p pw = (st, .err .NonExistentPath)
    ∧ ∃ st₃ info₃, remove_secret crcFn st₂ p₂ pw₂ = (st₃, .ok info₃)
        ∧ get_secret crcFn st₃ p₂ pw₂ = .err .NonExistentPath := by
  refine ⟨?_, ?_, ?_⟩
  · unfold get_secret
    rw [hread]
    dsimp only
    rw [hmiss]
  · unfold remove_secret
    rw [hread]
    dsimp only
    rw [hmiss]
  · obtain ⟨M, key, i, hk, hm₂, hget₂, hslot₂, hcrc₂⟩ :=
      set_secret_post crcFn st₁ st₂ p₂ c₂ pw₂ info₂ hset
    exact remove_then_get_nonexistent crcFn st₂ M p₂ pw₂ key i _ hm₂ hget₂ hk hslot₂

/-- Witness for claim C7 on the empty store. -/
theorem missing_and_removed_nonexistent_witness :
    get_secret rawCrc emptyVault "x".data "pw".data = .err .NonExistentPath
    ∧ remove_secret rawCrc emptyVault "x".data "pw".data
        = (emptyVault, .err .NonExistentPath)
    ∧ ∃ st₃ info₃,
        remove_secret rawCrc (set_secret rawCrc emptyVault "x".data "v".data "1".data).1
            "x".data "1".data = (st₃, .ok info₃)
        ∧ get_secret rawCrc st₃ "x".data "1".data = .err .NonExistentPath :=
  missing_and_removed_nonexistent rawCrc emptyVault [] "x".data "pw".data
    (by decide) (by decide) emptyVault
    (set_secret rawCrc emptyVault "x".data "v".data "1".data).1
    "x".data "v".data "1".data { path := "x".data, contents := "v".data }
    (by decide)

/-- Every failure of `check_crc` names the checked slot. -/
theorem check_crc_shape (crcFn : FileBytes → Nat) (t : VaultState) (j : Nat) :
    (∃ cv, check_crc crcFn t j = .ok cv) ∨
      check_crc crcFn t j = .err (.CrcMismatch j) := by
  unfold check_crc compute_crc read_crc_file
  cases hb : mapGet t.slotFiles j with
  | none => exact Or.inr rfl
  | some b =>
    simp only [Option.map_some']
    cases hs : mapGet t.crcFile j with
    | none => exact Or.inr rfl
    | some s =>
      dsimp only
      by_cases heq : s = crcFn b
      · rw [if_pos heq]
        exact Or.inl ⟨crcFn b, rfl⟩
      · rw [if_neg heq]
        exact Or.inr rfl

/-- Claim C4: the single-slot integrity check succeeds exactly when the
slot file exists, the ledger has an entry for it, and the freshly computed
checksum equals the stored one, and returns `CrcMismatch` for that slot
otherwise; consequently, overwriting the slot file of a freshly set secret
with bytes of a different checksum makes `get` return `CrcMismatch`. -/
theorem check_crc_exact_and_tamper (crcFn : FileBytes → Nat)
    (st st₂ : VaultState) (p c pw : Str) (info : SecretInfo) (m : IndexMap)
    (i : Nat) (orig tampered : FileBytes)
    (hset : set_secret crcFn st p c pw = (st₂, .ok info))
    (hm : read_index_file st₂ pw = .ok m) (hi : mapGet m p = some i)
    (horig : mapGet st₂.slotFiles i = some orig)
    (hcrc : crcFn tampered ≠ crcFn orig) :
    get_secret crcFn { st₂ with slotFiles := mapInsert st₂.slotFiles i tampered }
        p pw = .err (.CrcMismatch i)
    ∧ (∀ (t : VaultState) (j : Nat),
        (∃ cv, check_crc crcFn t j = .ok cv) ↔
          ∃ b, mapGet t.slotFiles j = some b ∧ mapGet t.crcFile j = some (crcFn b))
    ∧ (∀ (t : VaultState) (j : Nat),
        (¬ ∃ b, mapGet t.slotFiles j = some b ∧ mapGet t.crcFile j = some (crcFn b)) →
          check_crc crcFn t j = .err (.CrcMismatch j)) := by
  have hA : ∀ (t : VaultState) (j : Nat),
      (∃ cv, check_crc crcFn t j = .ok cv) ↔
        ∃ b, mapGet t.slotFiles j = some b ∧ mapGet t.crcFile j = some (crcFn b) := by
    intro t j
    unfold check_crc compute_crc read_crc_file
    cases hb : mapGet t.slotFiles j with
    | none =>
      simp only [Option.map_none']
      constructor
      · rintro ⟨cv, hcv⟩
        cases hcv
      · rintro ⟨b, hb2, -⟩
        cases hb2
    | some b =>
      simp only [Option.map_some']
      cases hs : mapGet t.crcFile j with
      | none =>
        constructor
        · rintro ⟨cv, hcv⟩
          cases hcv
        · rintro ⟨b2, hb2, hs2⟩
          cases hb2
          cases hs2
      | some s =>
        dsimp only
        constructor
        · rintro ⟨cv, hcv⟩
          by_cases heq : s = crcFn b
          · exact ⟨b, rfl, by rw [heq]⟩
          · rw [if_neg heq] at hcv
            cases hcv
        · rintro ⟨b2, hb2, hs2⟩
          cases hb2
          cases hs2
          rw [if_pos rfl]
          exact ⟨crcFn b, rfl⟩
  refine ⟨?_, hA, ?_⟩
  · obtain ⟨M, key, i', hk, hm₂, hget₂, hslot₂, hcrc₂⟩ :=
      set_secret_post crcFn st st₂ p c pw info hset
    have hM : M = m := by
      rw [hm₂] at hm
      exact SecretResult.ok.inj hm
    subst hM
    have hi' : i' = i := by
      rw [hget₂] at hi
      exact Option.some.inj hi
    subst hi'
    have horig' : orig = .cipher key (.strD c) := by
      rw [hslot₂] at horig
      exact (Option.some.inj horig).symm
    subst horig'
    have h1 : read_index_file
        { st₂ with slotFiles := mapInsert st₂.slotFiles i' tampered } pw = .ok M :=
      (read_index_file_congr st₂ _ pw rfl).trans hm
    unfold get_secret
    rw [h1]
    dsimp only
    rw [hget₂]
    dsimp only
    unfold check_crc compute_crc read_crc_file
    dsimp only
    rw [mapGet_mapInsert_self]
    simp only [Option.map_some']
    rw [hcrc₂]
    dsimp only
    rw [if_neg (fun h => hcrc h.symm)]
  · intro t j hno
    rcases check_crc_shape crcFn t j with ⟨cv, hcv⟩ | herr
    · exact absurd ((hA t j).mp ⟨cv, hcv⟩) hno
    · exact herr

/-- Witness for claim C4: tampering slot 0 of a freshly set secret. -/
theorem check_crc_exact_and_tamper_witness :
    get_secret rawCrc
      { (set_secret rawCrc emptyVault "x".data "v".data "1".data).1 with
        slotFiles :=
          mapInsert (set_secret rawCrc emptyVault "x".data "v".data "1".data).1.slotFiles
            0 (.raw 7) }
      "x".data "1".data = .err (.CrcMismatch 0) :=
  (check_crc_exact_and_tamper rawCrc emptyVault
    (set_secret rawCrc emptyVault "x".data "v".data "1".data).1
    "x".data "v".data "1".data { path := "x".data, contents := "v".data }
    [("x".data, 0)] 0
    (.cipher (format_pad32 "1".data) (.strD "v".data)) (.raw 7)
    (by decide) (by decide) (by decide) (by decide) (by decide)).1

theorem count_levels_nil : count_levels [] = 0 := rfl

theorem count_levels_cons (c : Char) (rest : Str) :
    count_levels (c :: rest) =
      count_levels rest + (if c = '/' then 1 else 0) := by
  by_cases h : c = '/'
  · simp [count_levels, List.count_cons, h]
  · simp [count_levels, List.count_cons, h]

theorem match_indices_nil (c : Char) : match_indices c [] = [] := rfl

theorem match_indices_cons (c a : Char) (rest : Str) :
    match_indices c (a :: rest) =
      if a = c then 0 :: (match_indices c rest).map (· + 1)
      else (match_indices c rest).map (· + 1) := by
  rw [match_indices]

theorem match_indices_length (c : Char) (s : Str) :
    (match_indices c s).length = s.count c := by
  induction s with
  | nil => rfl
  | cons a rest ih =>
    rw [match_indices_cons]
    by_cases h : a = c
    · simp [h, List.count_cons, ih]
    · simp [h, List.count_cons, ih, fun hh => h hh]

theorem path_segments_ne_nil (s : Str) : path_segments s ≠ [] := by
  cases s with
  | nil => simp [path_segments]
  | cons c rest =>
    rw [path_segments]
    by_cases h : c = '/'
    · simp [h]
    · rw [if_neg h]
      cases hps : path_segments rest <;> simp

theorem path_segments_cons_slash (rest : Str) :
    path_segments ('/' :: rest) = [] :: path_segments rest := by
  rw [path_segments, if_pos rfl]

theorem path_segments_cons_other (c : Char) (rest : Str) (h : c ≠ '/') :
    ∃ s0 ss, path_segments rest = s0 :: ss ∧
      path_segments (c :: rest) = (c :: s0) :: ss := by
  cases hps : path_segments rest with
  | nil => exact absurd hps (path_segments_ne_nil rest)
  | cons s0 ss =>
    refine ⟨s0, ss, rfl, ?_⟩
    rw [path_segments, if_neg h, hps]

theorem path_segments_length (s : Str) :
    (path_segments s).length = count_levels s + 1 := by
  induction s with
  | nil => rfl
  | cons c rest ih =>
    by_cases h : c = '/'
    · subst h
      rw [path_segments_cons_slash]
      simp [count_levels_cons, ih]
    · obtain ⟨s0, ss, hps, hcons⟩ := path_segments_cons_other c rest h
      rw [hcons, count_levels_cons, if_neg h]
      have := ih
      rw [hps] at this
      simpa using this

theorem path_segments_no_slash (s : Str) :
    ∀ seg ∈ path_segments s, '/' ∉ seg := by
  induction s with
  | nil =>
    intro seg hseg
    simp [path_segments] at hseg
    simp [hseg]
  | cons c rest ih =>
    by_cases h : c = '/'
    · subst h
      rw [path_segments_cons_slash]
      intro seg hseg
      rcases List.mem_cons.mp hseg with h2 | h2
      · simp [h2]
      · exact ih seg h2
    · obtain ⟨s0, ss, hps, hcons⟩ := path_segments_cons_other c rest h
      rw [hcons]
      intro seg hseg
      rcases List.mem_cons.mp hseg with h2 | h2
      · subst h2
        intro hmem
        rcases List.mem_cons.mp hmem with h3 | h3
        · exact h h3.symm
        · exact ih s0 (hps ▸ List.mem_cons_self s0 ss) h3
      · exact ih seg (hps ▸ List.mem_cons.mpr (Or.inr h2))

theorem count_levels_zero_segments (s : Str) (h : count_levels s = 0) :
    path_segments s = [s] := by
  induction s with
  | nil => rfl
  | cons c rest ih =>
    by_cases hc : c = '/'
    · rw [count_levels_cons, if_pos hc] at h
      omega
    · rw [count_levels_cons, if_neg hc] at h
      obtain ⟨s0, ss, hps, hcons⟩ := path_segments_cons_other c rest hc
      rw [hcons]
      have := ih (by omega)
      rw [hps] at this
      cases this
      rfl

theorem head?_drop_map_succ (L : List Nat) (n : Nat) :
    ((L.map (· + 1)).drop n).head? = (L.drop n).head?.map (· + 1) := by
  rw [← List.map_drop, List.head?_map]

theorem getD_map_succ (L : List Nat) (j : Nat) (h : j < L.length) :
    (L.map (· + 1)).getD j 0 = L.getD j 0 + 1 := by
  induction L generalizing j with
  | nil => simp at h
  | cons a t ih =>
    cases j with
    | zero => simp
    | succ j2 =>
      simp only [List.map_cons, List.getD_cons_succ]
      exact ih j2 (by simpa using h)

theorem spec_entry_cons_slash (rest : Str) (q : Nat) :
    spec_explore_entry (q + 1) ('/' :: rest) = spec_explore_entry q rest := by
  unfold spec_explore_entry
  rw [path_segments_cons_slash]
  simp only [List.getD_cons_succ, List.length_cons]
  by_cases h : q + 1 < (path_segments rest).length
  · rw [if_pos (by omega), if_pos h]
  · rw [if_neg (by omega), if_neg h]

theorem spec_entry_cons_other (c : Char) (rest : Str) (q : Nat)
    (hc : c ≠ '/') (hq : 1 ≤ q) :
    spec_explore_entry q (c :: rest) = spec_explore_entry q rest := by
  obtain ⟨s0, ss, hps, hcons⟩ := path_segments_cons_other c rest hc
  unfold spec_explore_entry
  rw [hcons, hps]
  obtain ⟨j, rfl⟩ : ∃ j, q = j + 1 := ⟨q - 1, by omega⟩
  simp only [List.getD_cons_succ, List.length_cons]

theorem explore_entry_cons_slash (rest : Str) (q : Nat)
    (hq : q = 0 ∨ q - 1 < (match_indices '/' rest).length) :
    explore_entry (q + 1) ('/' :: rest) = explore_entry q rest := by
  unfold explore_entry
  rw [match_indices_cons, if_pos rfl]
  dsimp only
  cases q with
  | zero =>
    rw [if_neg (by omega), if_pos rfl]
    simp only [Nat.add_sub_cancel, List.getD_cons_zero, List.drop_succ_cons,
      List.drop_zero]
    rw [List.head?_map]
    cases hh : (match_indices '/' rest).head? with
    | none => simp only [Option.map_none']
    | some e =>
      simp only [Option.map_some']
      congr 1
  | succ j =>
    have hj : j < (match_indices '/' rest).length := by
      rcases hq with h | h
      · omega
      · rwa [Nat.add_sub_cancel] at h
    rw [if_neg (by omega), if_neg (by omega)]
    simp only [Nat.add_sub_cancel, List.getD_cons_succ]
    rw [getD_map_succ _ j hj]
    rw [List.drop_succ_cons]
    rw [head?_drop_map_succ]
    cases hh : ((match_indices '/' rest).drop (j + 1)).head? with
    | none =>
      simp only [Option.map_none']
      rw [List.drop_succ_cons]
    | some e =>
      simp only [Option.map_some']
      rw [List.drop_succ_cons]
      congr 2
      omega

theorem explore_entry_cons_other (c : Char) (rest : Str) (q : Nat)
    (hc : c ≠ '/') (hq : 1 ≤ q) (hlen : q - 1 < (match_indices '/' rest).length) :
    explore_entry q (c :: rest) = explore_entry q rest := by
  unfold explore_entry
  rw [match_indices_cons, if_neg hc]
  dsimp only
  obtain ⟨j, rfl⟩ : ∃ j, q = j + 1 := ⟨q - 1, by omega⟩
  have hj : j < (match_indices '/' rest).length := by
    rwa [Nat.add_sub_cancel] at hlen
  rw [if_neg (by omega), if_neg (by omega)]
  simp only [Nat.add_sub_cancel]
  rw [getD_map_succ _ j hj]
  rw [head?_drop_map_succ]
  cases hh : ((match_indices '/' rest).drop (j + 1)).head? with
  | none =>
    simp only [Option.map_none']
    rw [List.drop_succ_cons]
  | some e =>
    simp only [Option.map_some']
    rw [List.drop_succ_cons]
    congr 2
    omega

theorem match_indices_eq_nil (s : Str) (h : count_levels s = 0) :
    match_indices '/' s = [] := by
  have hl := match_indices_length '/' s
  rw [show s.count '/' = count_levels s from rfl, h] at hl
  exact List.length_eq_zero.mp hl

theorem match_indices_singleton (s : Str) (h : count_levels s = 1) :
    ∃ e, match_indices '/' s = [e] := by
  have hl := match_indices_length '/' s
  rw [show s.count '/' = count_levels s from rfl, h] at hl
  cases hmi : match_indices '/' s with
  | nil => rw [hmi] at hl; cases hl
  | cons a t =>
    rw [hmi] at hl
    simp only [List.length_cons] at hl
    have : t = [] := List.length_eq_zero.mp (by omega)
    exact ⟨a, by rw [this]⟩

theorem spec_entry_zero_cons_branch (c : Char) (rest : Str) (hc : c ≠ '/')
    (h : 1 ≤ count_levels rest) :
    spec_explore_entry 0 (c :: rest) = c :: spec_explore_entry 0 rest := by
  obtain ⟨s0, ss, hps, hcons⟩ := path_segments_cons_other c rest hc
  have hlen := path_segments_length rest
  rw [hps] at hlen
  simp only [List.length_cons] at hlen
  unfold spec_explore_entry
  rw [hcons, hps]
  simp only [List.getD_cons_zero, List.length_cons]
  rw [if_pos (by omega), if_pos (by omega)]
  rfl

/-- Joint induction connecting the slash-index arithmetic of
`explore_entry` to segment extraction: on an item with exactly
`prefix_levels` separators the entry is the final segment, and with one
more separator it is the next segment plus its slash, marked with a
leading `!`. -/
theorem explore_entry_eq_spec (item : Str) : ∀ (pl : Nat),
    (count_levels item = pl →
      explore_entry pl item = spec_explore_entry pl item) ∧
    (count_levels item = pl + 1 →
      explore_entry pl item = '!' :: spec_explore_entry pl item) := by
  induction item with
  | nil =>
    intro pl
    constructor
    · intro h
      rw [count_levels_nil] at h
      cases h
      decide
    · intro h
      rw [count_levels_nil] at h
      exact absurd h (by omega)
  | cons c rest ih =>
    intro pl
    by_cases hc : c = '/'
    · subst hc
      have hcount : count_levels ('/' :: rest) = count_levels rest + 1 := by
        rw [count_levels_cons, if_pos rfl]
      constructor
      · intro h
        rw [hcount] at h
        subst h
        rw [explore_entry_cons_slash rest (count_levels rest)
            (by rw [match_indices_length]; unfold count_levels; omega),
          spec_entry_cons_slash]
        exact (ih (count_levels rest)).1 rfl
      · intro h
        rw [hcount] at h
        have h2 : count_levels rest = pl := by omega
        cases pl with
        | zero =>
          have hmi : match_indices '/' rest = [] := match_indices_eq_nil rest h2
          unfold explore_entry
          rw [match_indices_cons, if_pos rfl, hmi]
          dsimp only
          unfold spec_explore_entry
          rw [path_segments_cons_slash, count_levels_zero_segments rest h2]
          simp
        | succ q =>
          rw [explore_entry_cons_slash rest q
              (by rw [match_indices_length]; unfold count_levels at h; omega),
            spec_entry_cons_slash]
          exact (ih q).2 (by omega)
    · have hcount : count_levels (c :: rest) = count_levels rest := by
        rw [count_levels_cons, if_neg hc]
        omega
      constructor
      · intro h
        rw [hcount] at h
        cases pl with
        | zero =>
          have hmi : match_indices '/' rest = [] := match_indices_eq_nil rest h
          unfold explore_entry
          rw [match_indices_cons, if_neg hc, hmi]
          dsimp only
          simp only [List.map_nil, List.drop_zero, List.head?_nil]
          unfold spec_explore_entry
          rw [count_levels_zero_segments (c :: rest)
              (by rw [hcount]; exact h)]
          simp
        | succ q =>
          rw [explore_entry_cons_other c rest (q + 1) hc (by omega)
              (by rw [Nat.add_sub_cancel, match_indices_length]
                  unfold count_levels at h; omega),
            spec_entry_cons_other c rest (q + 1) hc (by omega)]
          exact (ih (q + 1)).1 h
      · intro h
        rw [hcount] at h
        cases pl with
        | zero =>
          obtain ⟨e, hmi⟩ := match_indices_singleton rest h
          have hrest := (ih 0).2 h
          have htake : List.take (e + 1 - 0) rest = spec_explore_entry 0 rest := by
            unfold explore_entry at hrest
            rw [hmi] at hrest
            dsimp only at hrest
            simp only [List.drop_zero, List.head?_cons] at hrest
            exact (List.cons.inj hrest).2
          unfold explore_entry
          rw [match_indices_cons, if_neg hc, hmi]
          dsimp only
          simp only [List.map_cons, List.map_nil, List.drop_zero, List.head?_cons]
          rw [spec_entry_zero_cons_branch c rest hc (by omega)]
          rw [← htake]
          simp only [Nat.sub_zero, if_true, List.drop_zero]
          rw [List.take_succ_cons]
        | succ q =>
          rw [explore_entry_cons_other c rest (q + 1) hc (by omega)
              (by rw [Nat.add_sub_cancel, match_indices_length]
                  unfold count_levels at h; omega),
            spec_entry_cons_other c rest (q + 1) hc (by omega)]
          exact (ih (q + 1)).2 h

theorem cons_le_cons_iff (a : Char) (l l' : Str) :
    (a :: l ≤ a :: l') ↔ l ≤ l' := by
  constructor
  · intro h
    rcases lt_or_eq_of_le h with h | h
    · exact le_of_lt (List.Lex.cons_iff.mp h)
    · simp at h
      exact le_of_eq h
  · intro h
    rcases lt_or_eq_of_le h with h | h
    · exact le_of_lt (List.Lex.cons h)
    · exact le_of_eq (by rw [h])

theorem dropWhile_bang_marked (s : Str) (h : headGtBang s = true) :
    List.dropWhile (· = '!') ('!' :: s) = s := by
  cases s with
  | nil => simp [headGtBang] at h
  | cons c t =>
    have hc : '!' < c := by simpa [headGtBang] using h
    rw [List.dropWhile_cons_of_pos (by simp), List.dropWhile_cons_of_neg]
    simp [ne_of_gt hc]

theorem dropWhile_bang_unmarked (s : Str) (h : headGtBang s = true) :
    List.dropWhile (· = '!') s = s := by
  cases s with
  | nil => simp [headGtBang] at h
  | cons c t =>
    have hc : '!' < c := by simpa [headGtBang] using h
    rw [List.dropWhile_cons_of_neg]
    simp [ne_of_gt hc]

theorem ends_with_append_slash (s : Str) :
    ends_with (s ++ ['/']) ['/'] = true := by
  unfold ends_with
  rw [List.reverse_append]
  simp [List.isPrefixOf]

theorem ends_with_slash_false (s : Str) (h : '/' ∉ s) :
    ends_with s ['/'] = false := by
  unfold ends_with
  cases hr : s.reverse with
  | nil => simp [List.isPrefixOf]
  | cons c t =>
    have hc : c ≠ '/' := by
      intro hcc
      subst hcc
      exact h (List.mem_reverse.mp (by rw [hr]; exact List.mem_cons_self _ _))
    simp [List.isPrefixOf, Ne.symm hc]

theorem spec_entry_no_slash (pl : Nat) (item : Str)
    (h : count_levels item = pl) :
    '/' ∉ spec_explore_entry pl item := by
  unfold spec_explore_entry
  have hlen := path_segments_length item
  rw [h] at hlen
  rw [if_neg (by omega)]
  have hlt : pl < (path_segments item).length := by omega
  rw [List.getD_eq_getElem _ _ hlt]
  exact path_segments_no_slash item _ (List.getElem_mem hlt)

theorem spec_entry_branch (pl : Nat) (item : Str)
    (h : count_levels item = pl + 1) :
    ∃ seg, spec_explore_entry pl item = seg ++ ['/'] := by
  unfold spec_explore_entry
  have hlen := path_segments_length item
  rw [h] at hlen
  rw [if_pos (by omega)]
  exact ⟨_, rfl⟩

/-- A sorted list whose members either start with `!` or start above
`!` is its `!`-headed members followed by the rest: the sort routine
groups the marked entries in front. -/
theorem sorted_split_bang (l : List Str)
    (hs : List.Sorted (· ≤ ·) l)
    (hshape : ∀ x ∈ l, x.head? = some '!' ∨ headGtBang x = true) :
    l = l.filter (fun x => decide (x.head? = some '!')) ++
        l.filter (fun x => ! decide (x.head? = some '!')) := by
  induction l with
  | nil => rfl
  | cons a t ih =>
    rw [List.sorted_cons] at hs
    obtain ⟨hall, ht⟩ := hs
    by_cases hm : a.head? = some '!'
    · rw [List.filter_cons_of_pos (by simp [hm]),
        List.filter_cons_of_neg (by simp [hm]), List.cons_append]
      congr 1
      exact ih ht (fun x hx => hshape x (List.mem_cons_of_mem a hx))
    · have hga : headGtBang a = true :=
        (hshape a (List.mem_cons_self a t)).resolve_left hm
      obtain ⟨c, s, rfl, hc⟩ : ∃ c s, a = c :: s ∧ '!' < c := by
        cases a with
        | nil => simp [headGtBang] at hga
        | cons c s => exact ⟨c, s, rfl, by simpa [headGtBang] using hga⟩
      have hallun : ∀ x ∈ t, ¬ (x.head? = some '!') := by
        intro x hx hxm
        cases x with
        | nil => simp at hxm
        | cons d u =>
          simp only [List.head?_cons, Option.some.injEq] at hxm
          subst hxm
          exact absurd (hall _ hx) (not_le_of_lt (List.Lex.rel hc))
      rw [List.filter_cons_of_neg (by simp [ne_of_gt hc]),
        List.filter_cons_of_pos (by simp [ne_of_gt hc])]
      rw [List.filter_eq_nil_iff.mpr (fun x hx => by simp [hallun x hx]),
        List.nil_append]
      congr 1
      exact (List.filter_eq_self.mpr (fun x hx => by simp [hallun x hx])).symm

/-- The dedup-sort-strip pipeline that ends `explore_contents`:
membership is preserved up to stripping, the output has no duplicates,
and it splits into the stripped marked block followed by the unmarked
block, each sorted. -/
theorem into_sorted_strip_spec (E : List Str)
    (hSh : ∀ x ∈ E,
      (∃ S, x = '!' :: S ∧ headGtBang S = true ∧ ends_with S ['/'] = true) ∨
      (headGtBang x = true ∧ ends_with x ['/'] = false)) :
    ((into_sorted E.dedup).map (fun val => val.dropWhile (· = '!'))).Nodup ∧
    (∀ s, s ∈ (into_sorted E.dedup).map (fun val => val.dropWhile (· = '!')) ↔
      ∃ x ∈ E, s = x.dropWhile (· = '!')) ∧
    ∃ bs ls,
      (into_sorted E.dedup).map (fun val => val.dropWhile (· = '!')) =
        bs ++ ls ∧
      List.Sorted (· ≤ ·) bs ∧ List.Sorted (· ≤ ·) ls ∧
      (∀ s ∈ bs, ends_with s ['/'] = true) ∧
      (∀ s ∈ ls, ends_with s ['/'] = false) := by
  have hperm : (into_sorted E.dedup).Perm E.dedup :=
    List.perm_insertionSort _ _
  have hsorted : (into_sorted E.dedup).Sorted (· ≤ ·) :=
    List.sorted_insertionSort _ _
  have hmemL : ∀ x, x ∈ into_sorted E.dedup ↔ x ∈ E :=
    fun x => (hperm.mem_iff).trans List.mem_dedup
  have hnodupL : (into_sorted E.dedup).Nodup :=
    hperm.nodup_iff.mpr (List.nodup_dedup E)
  set L := into_sorted E.dedup with hLdef
  have hShL : ∀ x ∈ L,
      (∃ S, x = '!' :: S ∧ headGtBang S = true ∧ ends_with S ['/'] = true) ∨
      (headGtBang x = true ∧ ends_with x ['/'] = false) :=
    fun x hx => hSh x ((hmemL x).mp hx)
  have hsplit := sorted_split_bang L hsorted (fun x hx =>
    match hShL x hx with
    | .inl ⟨S, hxS, _, _⟩ => Or.inl (by rw [hxS]; rfl)
    | .inr h => Or.inr h.1)
  have hmarked : ∀ x ∈ L.filter (fun x => decide (x.head? = some '!')),
      ∃ S, x = '!' :: S ∧ headGtBang S = true ∧ ends_with S ['/'] = true := by
    intro x hx
    rw [List.mem_filter] at hx
    obtain ⟨hxL, hxm⟩ := hx
    have hxm2 : x.head? = some '!' := by simpa using hxm
    rcases hShL x hxL with h | h
    · exact h
    · obtain ⟨hg, _⟩ := h
      cases x with
      | nil => simp [headGtBang] at hg
      | cons c t =>
        have hlt : '!' < c := by simpa [headGtBang] using hg
        simp only [List.head?_cons, Option.some.injEq] at hxm2
        exact absurd hxm2 (ne_of_gt hlt)
  have hunmarked : ∀ x ∈ L.filter (fun x => ! decide (x.head? = some '!')),
      headGtBang x = true ∧ ends_with x ['/'] = false := by
    intro x hx
    rw [List.mem_filter] at hx
    obtain ⟨hxL, hxm⟩ := hx
    have hxm2 : ¬ x.head? = some '!' := by simpa using hxm
    rcases hShL x hxL with h | h
    · obtain ⟨S, rfl, _, _⟩ := h
      simp at hxm2
    · exact h
  have hmap : L.map (fun val => val.dropWhile (· = '!')) =
      (L.filter (fun x => decide (x.head? = some '!'))).map
        (fun val => val.dropWhile (· = '!')) ++
      L.filter (fun x => ! decide (x.head? = some '!')) := by
    conv_lhs => rw [hsplit]
    rw [List.map_append]
    congr 1
    have h3 : ∀ a ∈ L.filter (fun x => ! decide (x.head? = some '!')),
        a.dropWhile (· = '!') = id a :=
      fun x hx => dropWhile_bang_unmarked x (hunmarked x hx).1
    rw [List.map_congr_left h3, List.map_id]
  have hendsbs : ∀ s ∈ (L.filter (fun x => decide (x.head? = some '!'))).map
      (fun val => val.dropWhile (· = '!')), ends_with s ['/'] = true := by
    intro s hs
    rw [List.mem_map] at hs
    obtain ⟨a, haf, hga⟩ := hs
    obtain ⟨S, rfl, hgS, hES⟩ := hmarked a haf
    rw [← hga, dropWhile_bang_marked S hgS]
    exact hES
  have hendsls : ∀ s ∈ L.filter (fun x => ! decide (x.head? = some '!')),
      ends_with s ['/'] = false :=
    fun s hs => (hunmarked s hs).2
  refine ⟨?_, ?_,
    (L.filter (fun x => decide (x.head? = some '!'))).map
      (fun val => val.dropWhile (· = '!')),
    L.filter (fun x => ! decide (x.head? = some '!')),
    hmap, ?_, ?_, hendsbs, hendsls⟩
  · rw [hmap, List.nodup_append]
    refine ⟨?_, hnodupL.filter _, ?_⟩
    · refine List.Nodup.map_on ?_ (hnodupL.filter _)
      intro x hx y hy hxy
      obtain ⟨X, rfl, hgX, _⟩ := hmarked x hx
      obtain ⟨Y, rfl, hgY, _⟩ := hmarked y hy
      rw [dropWhile_bang_marked X hgX, dropWhile_bang_marked Y hgY] at hxy
      rw [hxy]
    · intro s hsb hsl
      have h1 := hendsbs s hsb
      have h2 := hendsls s hsl
      rw [h1] at h2
      cases h2
  · intro s
    simp only [List.mem_map]
    constructor
    · rintro ⟨a, haL, rfl⟩
      exact ⟨a, (hmemL a).mp haL, rfl⟩
    · rintro ⟨x, hxE, rfl⟩
      exact ⟨x, (hmemL x).mpr hxE, rfl⟩
  · refine List.pairwise_map.mpr ?_
    refine List.Pairwise.imp_of_mem ?_ (List.Pairwise.filter _ hsorted)
    intro a b ha hb hab
    obtain ⟨A, rfl, hgA, _⟩ := hmarked a ha
    obtain ⟨B, rfl, hgB, _⟩ := hmarked b hb
    rw [dropWhile_bang_marked A hgA, dropWhile_bang_marked B hgB]
    exact (cons_le_cons_iff '!' A B).mp hab
  · exact List.Pairwise.filter _ hsorted

theorem explore_contents_eq (keys : List Str) (pre : Str) :
    explore_contents keys pre =
      (into_sorted ((keys.filterMap (fun item =>
        if starts_with item pre &&
            (count_levels item = count_levels pre ||
              count_levels item = count_levels pre + 1)
        then some (explore_entry (count_levels pre) item)
        else none)).dedup)).map
        (fun val => val.dropWhile (· = '!')) := rfl

theorem mem_entries (keys : List Str) (pre : Str) (x : Str) :
    x ∈ keys.filterMap (fun item =>
      if starts_with item pre &&
          (count_levels item = count_levels pre ||
            count_levels item = count_levels pre + 1)
      then some (explore_entry (count_levels pre) item)
      else none) ↔
    ∃ item ∈ keys, (starts_with item pre = true ∧
      (count_levels item = count_levels pre ∨
        count_levels item = count_levels pre + 1)) ∧
      x = explore_entry (count_levels pre) item := by
  rw [List.mem_filterMap]
  constructor
  · rintro ⟨a, ha, hfa⟩
    by_cases hp : (starts_with a pre &&
        (decide (count_levels a = count_levels pre) ||
          decide (count_levels a = count_levels pre + 1))) = true
    · rw [if_pos hp] at hfa
      refine ⟨a, ha, ?_, (Option.some.inj hfa).symm⟩
      simpa [Bool.and_eq_true, Bool.or_eq_true, decide_eq_true_eq] using hp
    · rw [if_neg hp] at hfa
      cases hfa
  · rintro ⟨a, ha, hp, rfl⟩
    have hc : (starts_with a pre &&
        (decide (count_levels a = count_levels pre) ||
          decide (count_levels a = count_levels pre + 1))) = true := by
      simpa [Bool.and_eq_true, Bool.or_eq_true, decide_eq_true_eq] using hp
    exact ⟨a, ha, by rw [if_pos hc]⟩

/-- Claim C6: `explore_contents` returns, without duplicates, exactly
the next path segments of the keys that start with the prefix and whose
depth equals the prefix's depth or exceeds it by one, each branch segment
suffixed with `/`; the output is a sorted block of branch entries
followed by a sorted block of leaf entries (the `!` marker trick of
`src/util/glob.rs` lines 189-199 puts every branch before every leaf,
not interleaved lexicographically). -/
theorem explore_contents_grouped (keys : List Str) (pre : Str)
    (hseg : ∀ item ∈ keys, starts_with item pre = true →
      (count_levels item = count_levels pre ∨
        count_levels item = count_levels pre + 1) →
      headGtBang (spec_explore_entry (count_levels pre) item) = true) :
    ((explore_contents keys pre).Nodup ∧
      ∀ s, s ∈ explore_contents keys pre ↔
        ∃ item ∈ keys, (starts_with item pre = true ∧
          (count_levels item = count_levels pre ∨
            count_levels item = count_levels pre + 1)) ∧
          s = spec_explore_entry (count_levels pre) item) ∧
    ∃ bs ls, explore_contents keys pre = bs ++ ls ∧
      List.Sorted (· ≤ ·) bs ∧ List.Sorted (· ≤ ·) ls ∧
      (∀ s ∈ bs, ends_with s ['/'] = true) ∧
      (∀ s ∈ ls, ends_with s ['/'] = false) := by
  have hSh : ∀ x ∈ keys.filterMap (fun item =>
      if starts_with item pre &&
          (count_levels item = count_levels pre ||
            count_levels item = count_levels pre + 1)
      then some (explore_entry (count_levels pre) item)
      else none),
      (∃ S, x = '!' :: S ∧ headGtBang S = true ∧ ends_with S ['/'] = true) ∨
      (headGtBang x = true ∧ ends_with x ['/'] = false) := by
    intro x hx
    rw [mem_entries] at hx
    obtain ⟨item, hitem, ⟨hsw, hlv⟩, rfl⟩ := hx
    rcases hlv with hlv | hlv
    · right
      rw [(explore_entry_eq_spec item (count_levels pre)).1 hlv]
      exact ⟨hseg item hitem hsw (Or.inl hlv),
        ends_with_slash_false _ (spec_entry_no_slash _ item hlv)⟩
    · left
      rw [(explore_entry_eq_spec item (count_levels pre)).2 hlv]
      refine ⟨spec_explore_entry (count_levels pre) item, rfl,
        hseg item hitem hsw (Or.inr hlv), ?_⟩
      obtain ⟨seg, hsg⟩ := spec_entry_branch _ item hlv
      rw [hsg]
      exact ends_with_append_slash seg
  obtain ⟨hnd, hmem, bs, ls, hsplitE, h4, h5, h6, h7⟩ :=
    into_sorted_strip_spec (keys.filterMap (fun item =>
      if starts_with item pre &&
          (count_levels item = count_levels pre ||
            count_levels item = count_levels pre + 1)
      then some (explore_entry (count_levels pre) item)
      else none)) hSh
  rw [explore_contents_eq]
  refine ⟨⟨hnd, ?_⟩, bs, ls, hsplitE, h4, h5, h6, h7⟩
  intro s
  rw [hmem s]
  constructor
  · rintro ⟨x, hxE, rfl⟩
    rw [mem_entries] at hxE
    obtain ⟨item, hitem, hP, rfl⟩ := hxE
    refine ⟨item, hitem, hP, ?_⟩
    rcases hP.2 with hlv | hlv
    · rw [(explore_entry_eq_spec item (count_levels pre)).1 hlv,
        dropWhile_bang_unmarked _ (hseg item hitem hP.1 (Or.inl hlv))]
    · rw [(explore_entry_eq_spec item (count_levels pre)).2 hlv,
        dropWhile_bang_marked _ (hseg item hitem hP.1 (Or.inr hlv))]
  · rintro ⟨item, hitem, hP, rfl⟩
    refine ⟨explore_entry (count_levels pre) item,
      (mem_entries keys pre _).mpr ⟨item, hitem, hP, rfl⟩, ?_⟩
    rcases hP.2 with hlv | hlv
    · rw [(explore_entry_eq_spec item (count_levels pre)).1 hlv,
        dropWhile_bang_unmarked _ (hseg item hitem hP.1 (Or.inl hlv))]
    · rw [(explore_entry_eq_spec item (count_levels pre)).2 hlv,
        dropWhile_bang_marked _ (hseg item hitem hP.1 (Or.inr hlv))]

/-- The output of `explore_contents` is not always sorted
lexicographically: with keys `ab` and `ab/x` the branch entry `ab/` is
listed before the leaf `ab`, although `ab < ab/` in lexicographic
order. -/
theorem explore_contents_not_lex_sorted :
    explore_contents ["ab".data, "ab/x".data] [] =
      ["ab/".data, "ab".data] ∧
    ¬ List.Sorted (· ≤ ·) ["ab/".data, "ab".data] := by
  constructor
  · decide
  · decide

/-- The spec's own explore examples, checked through
`explore_contents_grouped`: the side condition holds for the four keys,
the output has no duplicates, and the two listings compute to
`[animal/, any]` and `[cat, dog]`. -/
theorem explore_contents_grouped_witness :
    (∀ item ∈ ["any".data, "else".data, "animal/dog".data,
        "animal/cat".data],
      starts_with item "an".data = true →
      (count_levels item = count_levels "an".data ∨
        count_levels item = count_levels "an".data + 1) →
      headGtBang (spec_explore_entry (count_levels "an".data) item) = true) ∧
    (explore_contents ["any".data, "else".data, "animal/dog".data,
      "animal/cat".data] "an".data).Nodup ∧
    explore_contents ["any".data, "else".data, "animal/dog".data,
      "animal/cat".data] "an".data = ["animal/".data, "any".data] ∧
    explore_contents ["any".data, "else".data, "animal/dog".data,
      "animal/cat".data] "animal/".data = ["cat".data, "dog".data] :=
  ⟨by decide, (explore_contents_grouped _ _ (by decide)).1.1,
    by decide, by decide⟩

theorem walk_entries_ne_nil (base : FsPath) (es : List (Str × FsNode)) :
    ∀ q ∈ walk_entries base es, q ≠ [] := by
  induction base, es using walk_entries.induct with
  | case1 base => simp [walk_entries]
  | case2 base name id rest ih =>
    intro q hq
    rw [walk_entries] at hq
    rcases List.mem_cons.mp hq with rfl | hq
    · simp
    · exact ih q hq
  | case3 base name cs rest ih1 ih2 =>
    intro q hq
    rw [walk_entries] at hq
    rcases List.mem_append.mp hq with hq | hq
    · exact ih1 q hq
    · exact ih2 q hq

theorem mapGet_eq_none_iff (l : List (Str × FsNode)) (x : Str) :
    mapGet l x = none ↔ ∀ e ∈ l, e.1 ≠ x := by
  induction l with
  | nil =>
    rw [show mapGet ([] : List (Str × FsNode)) x = none from rfl]
    exact ⟨fun _ e he => absurd he (List.not_mem_nil e), fun _ => rfl⟩
  | cons e rest ih =>
    rw [mapGet]
    by_cases h : e.1 = x
    · simp [h]
    · rw [if_neg h, ih]
      simp only [List.mem_cons, forall_eq_or_imp]
      exact ⟨fun hh => ⟨h, hh⟩, fun hh => hh.2⟩

theorem mapGet_filter_pos (l : List (Str × FsNode)) (f : Str × FsNode → Bool)
    (x : Str) (c : FsNode) (h : mapGet l x = some c) (hf : f (x, c) = true) :
    mapGet (l.filter f) x = some c := by
  induction l with
  | nil => simp [mapGet] at h
  | cons e rest ih =>
    rw [mapGet] at h
    by_cases hx : e.1 = x
    · rw [if_pos hx] at h
      obtain rfl := Option.some.inj h
      have he : e = (x, e.2) := by
        rw [← hx]
      rw [List.filter_cons_of_pos (by rw [he]; exact hf), mapGet, if_pos hx]
    · rw [if_neg hx] at h
      by_cases hk : f e = true
      · rw [List.filter_cons_of_pos hk, mapGet, if_neg hx]
        exact ih h
      · rw [List.filter_cons_of_neg hk]
        exact ih h

theorem mapGet_filter_neg (l : List (Str × FsNode)) (f : Str × FsNode → Bool)
    (x : Str) (c : FsNode) (hu : ∀ e ∈ l, e.1 = x → e.2 = c)
    (hf : f (x, c) = false) :
    mapGet (l.filter f) x = none := by
  induction l with
  | nil => simp [mapGet]
  | cons e rest ih =>
    by_cases hx : e.1 = x
    · have hch : e.2 = c := hu e (List.mem_cons_self _ _) hx
      have he : e = (x, c) := by
        rw [← hx, ← hch]
      rw [List.filter_cons_of_neg (by rw [he]; simp [hf])]
      exact ih (fun d hd hh => hu d (List.mem_cons_of_mem _ hd) hh)
    · by_cases hk : f e = true
      · rw [List.filter_cons_of_pos hk, mapGet, if_neg hx]
        exact ih (fun d hd hh => hu d (List.mem_cons_of_mem _ hd) hh)
      · rw [List.filter_cons_of_neg hk]
        exact ih (fun d hd hh => hu d (List.mem_cons_of_mem _ hd) hh)

theorem mapGet_filter_none (l : List (Str × FsNode)) (f : Str × FsNode → Bool)
    (x : Str) (h : mapGet l x = none) :
    mapGet (l.filter f) x = none := by
  rw [mapGet_eq_none_iff] at h ⊢
  exact fun e he => h e (List.mem_of_mem_filter he)

theorem mapGet_map_keyfix (l : List (Str × FsNode))
    (g : Str × FsNode → Str × FsNode) (hg : ∀ e, (g e).1 = e.1) (x : Str) :
    mapGet (l.map g) x = Option.map (fun c => (g (x, c)).2) (mapGet l x) := by
  induction l with
  | nil => simp [mapGet]
  | cons e rest ih =>
    rw [List.map_cons, mapGet, mapGet, hg e]
    by_cases hx : e.1 = x
    · rw [if_pos hx, if_pos hx, Option.map_some']
      have he : e = (x, e.2) := by
        rw [← hx]
      rw [← he]
    · rw [if_neg hx, if_neg hx]
      exact ih

theorem wellFormed_dir_cons (n : Str) (ch : FsNode)
    (rest : List (Str × FsNode)) :
    wellFormed (.dir ((n, ch) :: rest)) = true ↔
      ((∀ e ∈ rest, e.1 ≠ n) ∧ wellFormed ch = true ∧
        wellFormed (.dir rest) = true) := by
  simp [wellFormed, List.any_eq_false, and_assoc]

theorem wellFormed_mapGet (es : List (Str × FsNode)) (x : Str) (c : FsNode)
    (hwf : wellFormed (.dir es) = true) (h : mapGet es x = some c) :
    wellFormed c = true := by
  induction es with
  | nil => cases h
  | cons e rest ih =>
    obtain ⟨n, ch⟩ := e
    rw [wellFormed_dir_cons] at hwf
    rw [mapGet] at h
    by_cases hx : (n, ch).1 = x
    · rw [if_pos hx] at h
      obtain rfl := Option.some.inj h
      exact hwf.2.1
    · rw [if_neg hx] at h
      exact ih hwf.2.2 h

theorem wellFormed_unique (es : List (Str × FsNode)) (x : Str) (c : FsNode)
    (hwf : wellFormed (.dir es) = true) (h : mapGet es x = some c) :
    ∀ e ∈ es, e.1 = x → e.2 = c := by
  induction es with
  | nil => cases h
  | cons e rest ih =>
    obtain ⟨n, ch⟩ := e
    rw [wellFormed_dir_cons] at hwf
    rw [mapGet] at h
    intro d hd hdx
    by_cases hx : (n, ch).1 = x
    · rw [if_pos hx] at h
      obtain rfl := Option.some.inj h
      rcases List.mem_cons.mp hd with rfl | hd
      · rfl
      · exact absurd (hdx.trans hx.symm) (hwf.1 d hd)
    · rw [if_neg hx] at h
      rcases List.mem_cons.mp hd with rfl | hd
      · exact absurd hdx hx
      · exact ih hwf.2.2 h d hd hdx

theorem fileAt_dir_nil (es : List (Str × FsNode)) :
    fileAt (.dir es) [] = none := rfl

theorem fileAt_file_nil (id : Nat) : fileAt (.file id) [] = some id := rfl

theorem fileAt_file_cons (id : Nat) (x : Str) (ps : FsPath) :
    fileAt (.file id) (x :: ps) = none := rfl

theorem fileAt_dir_cons (es : List (Str × FsNode)) (x : Str) (ps : FsPath) :
    fileAt (.dir es) (x :: ps) =
      (match mapGet es x with
        | some c => fileAt c ps
        | none => none) := by
  unfold fileAt
  cases hm : mapGet es x <;> simp only [lookupNode, hm]

theorem wellFormed_filter (es : List (Str × FsNode))
    (f : Str × FsNode → Bool) (hwf : wellFormed (.dir es) = true) :
    wellFormed (.dir (es.filter f)) = true := by
  induction es with
  | nil => simpa using hwf
  | cons e rest ih =>
    obtain ⟨n, ch⟩ := e
    rw [wellFormed_dir_cons] at hwf
    by_cases hk : f (n, ch) = true
    · rw [List.filter_cons_of_pos hk, wellFormed_dir_cons]
      exact ⟨fun d hd => hwf.1 d (List.mem_of_mem_filter hd),
        hwf.2.1, ih hwf.2.2⟩
    · rw [List.filter_cons_of_neg hk]
      exact ih hwf.2.2

theorem wellFormed_map_keyfix (es : List (Str × FsNode))
    (g : Str × FsNode → Str × FsNode) (hg : ∀ e, (g e).1 = e.1)
    (hch : ∀ e ∈ es, wellFormed e.2 = true → wellFormed (g e).2 = true)
    (hwf : wellFormed (.dir es) = true) :
    wellFormed (.dir (es.map g)) = true := by
  induction es with
  | nil => simpa using hwf
  | cons e rest ih =>
    obtain ⟨n, ch⟩ := e
    rw [wellFormed_dir_cons] at hwf
    rw [List.map_cons]
    cases hge : g (n, ch) with
    | mk n2 ch2 =>
      have hn : n2 = n := by
        have h2 := hg (n, ch)
        rw [hge] at h2
        exact h2
      rw [hn, wellFormed_dir_cons]
      refine ⟨?_, ?_, ih (fun d hd => hch d (List.mem_cons_of_mem _ hd)) hwf.2.2⟩
      · intro d hd
        rw [List.mem_map] at hd
        obtain ⟨d0, hd0, rfl⟩ := hd
        rw [hg d0]
        exact hwf.1 d0 hd0
      · have h3 := hch (n, ch) (List.mem_cons_self _ _) hwf.2.1
        rw [hge] at h3
        exact h3

theorem remove_file_at_dir (es : List (Str × FsNode)) (q : FsPath) :
    ∃ es2, remove_file_at (.dir es) q = .dir es2 := by
  match q with
  | [] => exact ⟨es, rfl⟩
  | [a] => exact ⟨_, rfl⟩
  | a :: b :: rest => exact ⟨_, rfl⟩

theorem wellFormed_remove_file_at (q : FsPath) (t : FsNode)
    (hwf : wellFormed t = true) :
    wellFormed (remove_file_at t q) = true := by
  induction q generalizing t with
  | nil => simpa [remove_file_at] using hwf
  | cons a q2 ih =>
    cases t with
    | file id => simpa [remove_file_at] using hwf
    | dir es =>
      cases q2 with
      | nil =>
        rw [show remove_file_at (.dir es) [a] = .dir (es.filter (fun e =>
          match e.2 with
          | .file _ => e.1 ≠ a
          | .dir _ => True)) from rfl]
        exact wellFormed_filter es _ hwf
      | cons b rest =>
        rw [show remove_file_at (.dir es) (a :: b :: rest) =
          .dir (es.map (fun e =>
            if e.1 = a then (e.1, remove_file_at e.2 (b :: rest)) else e))
          from rfl]
        refine wellFormed_map_keyfix es _ (fun e => ?_) (fun e he hwe => ?_) hwf
        · by_cases he : e.1 = a
          · rw [if_pos he]
          · rw [if_neg he]
        · by_cases hea : e.1 = a
          · rw [if_pos hea]
            exact ih _ hwe
          · rw [if_neg hea]
            exact hwe

theorem fileAt_dir_cons_some (es : List (Str × FsNode)) (x : Str)
    (ps : FsPath) (c : FsNode) (hm : mapGet es x = some c) :
    fileAt (.dir es) (x :: ps) = fileAt c ps := by
  rw [fileAt_dir_cons, hm]

theorem fileAt_dir_cons_none (es : List (Str × FsNode)) (x : Str)
    (ps : FsPath) (hm : mapGet es x = none) :
    fileAt (.dir es) (x :: ps) = none := by
  rw [fileAt_dir_cons, hm]

/-- Deleting one nonempty path changes the tree at exactly that path:
`fs::remove_file` on a matched path, stated for every lookup. -/
theorem fileAt_remove_file_at (q : FsPath) (t : FsNode) (p : FsPath)
    (hwf : wellFormed t = true) (hq : q ≠ []) :
    fileAt (remove_file_at t q) p = if p = q then none else fileAt t p := by
  induction q generalizing t p with
  | nil => exact absurd rfl hq
  | cons a q2 ih =>
    cases t with
    | file id =>
      have hrm : remove_file_at (.file id) (a :: q2) = .file id := rfl
      rw [hrm]
      by_cases hp : p = a :: q2
      · rw [if_pos hp, hp, fileAt_file_cons]
      · rw [if_neg hp]
    | dir es =>
      cases q2 with
      | nil =>
        rw [show remove_file_at (.dir es) [a] = .dir (es.filter (fun e =>
          match e.2 with
          | .file _ => e.1 ≠ a
          | .dir _ => True)) from rfl]
        cases p with
        | nil =>
          rw [fileAt_dir_nil, fileAt_dir_nil, if_neg (by simp)]
        | cons x ps =>
          cases hm : mapGet es x with
          | none =>
            rw [fileAt_dir_cons_none _ x ps (mapGet_filter_none es _ x hm),
              fileAt_dir_cons_none es x ps hm]
            by_cases hp : x :: ps = [a]
            · rw [if_pos hp]
            · rw [if_neg hp]
          | some c =>
            by_cases hx : x = a
            · subst hx
              cases c with
              | file id =>
                rw [fileAt_dir_cons_none _ x ps
                    (mapGet_filter_neg es _ x (.file id)
                      (wellFormed_unique es x _ hwf hm) (by simp)),
                  fileAt_dir_cons_some es x ps _ hm]
                cases ps with
                | nil => rw [if_pos rfl]
                | cons b ps2 => rw [if_neg (by simp), fileAt_file_cons]
              | dir cs =>
                rw [fileAt_dir_cons_some _ x ps (.dir cs)
                    (mapGet_filter_pos es _ x (.dir cs) hm (by simp)),
                  fileAt_dir_cons_some es x ps (.dir cs) hm]
                cases ps with
                | nil => rw [if_pos rfl, fileAt_dir_nil]
                | cons b ps2 => rw [if_neg (by simp)]
            · rw [fileAt_dir_cons_some _ x ps c
                  (mapGet_filter_pos es _ x c hm ?side),
                fileAt_dir_cons_some es x ps c hm, if_neg (by simp [hx])]
              case side =>
                cases c with
                | file id => simp [hx]
                | dir cs => simp
      | cons b rest =>
        rw [show remove_file_at (.dir es) (a :: b :: rest) =
          .dir (es.map (fun e =>
            if e.1 = a then (e.1, remove_file_at e.2 (b :: rest)) else e))
          from rfl]
        have hG : ∀ e : Str × FsNode,
            ((if e.1 = a then (e.1, remove_file_at e.2 (b :: rest))
              else e)).1 = e.1 := by
          intro e
          by_cases he : e.1 = a
          · rw [if_pos he]
          · rw [if_neg he]
        cases p with
        | nil =>
          rw [fileAt_dir_nil, fileAt_dir_nil, if_neg (by simp)]
        | cons x ps =>
          cases hm : mapGet es x with
          | none =>
            have hmn : mapGet (es.map (fun e =>
                if e.1 = a then (e.1, remove_file_at e.2 (b :: rest))
                else e)) x = none := by
              rw [mapGet_map_keyfix es _ hG x, hm, Option.map_none']
            rw [fileAt_dir_cons_none _ x ps hmn,
              fileAt_dir_cons_none es x ps hm]
            by_cases hp : x :: ps = a :: b :: rest
            · rw [if_pos hp]
            · rw [if_neg hp]
          | some c =>
            by_cases hx : x = a
            · subst hx
              have hms : mapGet (es.map (fun e =>
                  if e.1 = x then (e.1, remove_file_at e.2 (b :: rest))
                  else e)) x = some (remove_file_at c (b :: rest)) := by
                rw [mapGet_map_keyfix es _ hG x, hm, Option.map_some',
                  if_pos (show (x, c).1 = x from rfl)]
              rw [fileAt_dir_cons_some _ x ps _ hms,
                fileAt_dir_cons_some es x ps c hm,
                ih c ps (wellFormed_mapGet es x c hwf hm) (by simp)]
              by_cases hps : ps = b :: rest
              · rw [if_pos hps, if_pos (by rw [hps])]
              · rw [if_neg hps, if_neg (by simp [hps])]
            · have hms : mapGet (es.map (fun e =>
                  if e.1 = a then (e.1, remove_file_at e.2 (b :: rest))
                  else e)) x = some c := by
                rw [mapGet_map_keyfix es _ hG x, hm, Option.map_some',
                  if_neg (show ¬ (x, c).1 = a from hx)]
              rw [fileAt_dir_cons_some _ x ps c hms,
                fileAt_dir_cons_some es x ps c hm, if_neg (by simp [hx])]

theorem foldl_remove_dir (qs : List FsPath) (es : List (Str × FsNode)) :
    ∃ es2, qs.foldl remove_file_at (.dir es) = .dir es2 := by
  induction qs generalizing es with
  | nil => exact ⟨es, rfl⟩
  | cons q qs2 ih =>
    rw [List.foldl_cons]
    obtain ⟨es1, h1⟩ := remove_file_at_dir es q
    rw [h1]
    exact ih es1

/-- Folding `remove_file_at` over the matched paths removes exactly
those paths, keeps the tree well-formed, and leaves every other file in
place. -/
theorem fileAt_foldl_remove (qs : List FsPath) (t : FsNode)
    (hwf : wellFormed t = true) (hqs : ∀ q ∈ qs, q ≠ []) :
    wellFormed (qs.foldl remove_file_at t) = true ∧
    ∀ p, fileAt (qs.foldl remove_file_at t) p =
      if p ∈ qs then none else fileAt t p := by
  induction qs generalizing t with
  | nil =>
    refine ⟨hwf, fun p => ?_⟩
    rw [List.foldl_nil, if_neg (List.not_mem_nil p)]
  | cons q qs2 ih =>
    rw [List.foldl_cons]
    obtain ⟨hwf2, hchar⟩ := ih (remove_file_at t q)
      (wellFormed_remove_file_at q t hwf)
      (fun r hr => hqs r (List.mem_cons_of_mem _ hr))
    refine ⟨hwf2, fun p => ?_⟩
    rw [hchar p,
      fileAt_remove_file_at q t p hwf (hqs q (List.mem_cons_self _ _))]
    by_cases h1 : p ∈ qs2
    · rw [if_pos h1, if_pos (List.mem_cons_of_mem _ h1)]
    · rw [if_neg h1]
      by_cases h2 : p = q
      · rw [if_pos h2, if_pos (List.mem_cons.mpr (Or.inl h2))]
      · rw [if_neg h2, if_neg (by
          intro hmem
          rcases List.mem_cons.mp hmem with hh | hh
          · exact h2 hh
          · exact h1 hh)]

theorem pruneEntries_keys (l : List (Str × FsNode)) :
    ∀ e ∈ pruneEntries l, ∃ c, (e.1, c) ∈ l := by
  induction l using pruneEntries.induct with
  | case1 => simp [pruneEntries]
  | case2 id rest ih =>
    rw [show pruneEntries ((dsStore, .file id) :: rest) =
      pruneEntries rest from by simp [pruneEntries]]
    intro e he
    obtain ⟨c, hc⟩ := ih e he
    exact ⟨c, List.mem_cons_of_mem _ hc⟩
  | case3 name id rest hname ih =>
    rw [show pruneEntries ((name, .file id) :: rest) =
      (name, .file id) :: pruneEntries rest from by
        simp [pruneEntries, hname]]
    intro e he
    rcases List.mem_cons.mp he with rfl | he
    · exact ⟨.file id, List.mem_cons_self _ _⟩
    · obtain ⟨c, hc⟩ := ih e he
      exact ⟨c, List.mem_cons_of_mem _ hc⟩
  | case4 name es0 rest hpr ih1 ih2 =>
    rw [show pruneEntries ((name, .dir es0) :: rest) =
      pruneEntries rest from by simp [pruneEntries, hpr]]
    intro e he
    obtain ⟨c, hc⟩ := ih2 e he
    exact ⟨c, List.mem_cons_of_mem _ hc⟩
  | case5 name es0 rest e0 es2 hpr ih1 ih2 =>
    rw [show pruneEntries ((name, .dir es0) :: rest) =
      (name, .dir (e0 :: es2)) :: pruneEntries rest from by
        simp [pruneEntries, hpr]]
    intro e he
    rcases List.mem_cons.mp he with rfl | he
    · exact ⟨.dir es0, List.mem_cons_self _ _⟩
    · obtain ⟨c, hc⟩ := ih2 e he
      exact ⟨c, List.mem_cons_of_mem _ hc⟩

/-- One directory level of the pruning pass: an entry survives exactly
when it is a file not named `.DS_Store` or a directory with something
left inside, and surviving directories are pruned recursively. -/
theorem mapGet_pruneEntries (x : Str) :
    ∀ (es : List (Str × FsNode)), wellFormed (.dir es) = true →
    mapGet (pruneEntries es) x =
      (match mapGet es x with
        | some (.file id) => if x = dsStore then none else some (.file id)
        | some (.dir cs) =>
          (match pruneEntries cs with
            | [] => none
            | e :: es2 => some (.dir (e :: es2)))
        | none => none) := by
  intro es
  induction es using pruneEntries.induct with
  | case1 =>
    intro _
    simp [pruneEntries, mapGet]
  | case2 id rest ih =>
    intro hwf
    rw [wellFormed_dir_cons] at hwf
    rw [show pruneEntries ((dsStore, .file id) :: rest) =
      pruneEntries rest from by simp [pruneEntries]]
    rw [show mapGet ((dsStore, FsNode.file id) :: rest) x =
      if dsStore = x then some (.file id) else mapGet rest x from rfl]
    by_cases hx : dsStore = x
    · rw [if_pos hx]
      have hnone : mapGet (pruneEntries rest) x = none := by
        rw [mapGet_eq_none_iff]
        intro e he
        obtain ⟨c, hc⟩ := pruneEntries_keys rest e he
        intro hex
        exact hwf.1 (e.1, c) hc (hex.trans hx.symm)
      dsimp only
      rw [hnone, if_pos hx.symm]
    · rw [if_neg hx]
      exact ih hwf.2.2
  | case3 name id rest hname ih =>
    intro hwf
    rw [wellFormed_dir_cons] at hwf
    rw [show pruneEntries ((name, .file id) :: rest) =
      (name, .file id) :: pruneEntries rest from by
        simp [pruneEntries, hname]]
    rw [show mapGet ((name, FsNode.file id) :: rest) x =
      if name = x then some (.file id) else mapGet rest x from rfl]
    rw [show mapGet ((name, FsNode.file id) :: pruneEntries rest) x =
      if name = x then some (.file id) else mapGet (pruneEntries rest) x
      from rfl]
    by_cases hx : name = x
    · rw [if_pos hx, if_pos hx]
      dsimp only
      rw [if_neg (show ¬ x = dsStore from fun hh => hname (hx.trans hh))]
    · rw [if_neg hx, if_neg hx]
      exact ih hwf.2.2
  | case4 name es0 rest hpr ih1 ih2 =>
    intro hwf
    rw [wellFormed_dir_cons] at hwf
    rw [show pruneEntries ((name, .dir es0) :: rest) =
      pruneEntries rest from by simp [pruneEntries, hpr]]
    rw [show mapGet ((name, FsNode.dir es0) :: rest) x =
      if name = x then some (.dir es0) else mapGet rest x from rfl]
    by_cases hx : name = x
    · rw [if_pos hx]
      have hnone : mapGet (pruneEntries rest) x = none := by
        rw [mapGet_eq_none_iff]
        intro e he
        obtain ⟨c, hc⟩ := pruneEntries_keys rest e he
        intro hex
        exact hwf.1 (e.1, c) hc (hex.trans hx.symm)
      dsimp only
      rw [hpr, hnone]
    · rw [if_neg hx]
      exact ih2 hwf.2.2
  | case5 name es0 rest e0 es2 hpr ih1 ih2 =>
    intro hwf
    rw [wellFormed_dir_cons] at hwf
    rw [show pruneEntries ((name, .dir es0) :: rest) =
      (name, .dir (e0 :: es2)) :: pruneEntries rest from by
        simp [pruneEntries, hpr]]
    rw [show mapGet ((name, FsNode.dir es0) :: rest) x =
      if name = x then some (.dir es0) else mapGet rest x from rfl]
    rw [show mapGet ((name, FsNode.dir (e0 :: es2)) :: pruneEntries rest) x =
      if name = x then some (.dir (e0 :: es2))
      else mapGet (pruneEntries rest) x from rfl]
    by_cases hx : name = x
    · rw [if_pos hx, if_pos hx]
      dsimp only
      rw [hpr]
    · rw [if_neg hx, if_neg hx]
      exact ih2 hwf.2.2

/-- The pruning pass deletes exactly the files whose final component
is `.DS_Store`: every other file keeps its place, because only empty
directories are dropped. -/
theorem fileAt_pruneEntries (p : FsPath) :
    ∀ (es : List (Str × FsNode)), wellFormed (.dir es) = true →
    fileAt (.dir (pruneEntries es)) p =
      if p.getLast? = some dsStore then none else fileAt (.dir es) p := by
  induction p with
  | nil =>
    intro es hwf
    rw [fileAt_dir_nil, fileAt_dir_nil, if_neg (by simp)]
  | cons x ps ih =>
    intro es hwf
    cases hm : mapGet es x with
    | none =>
      have h2 : mapGet (pruneEntries es) x = none := by
        rw [mapGet_pruneEntries x es hwf, hm]
      rw [fileAt_dir_cons_none _ x ps h2, fileAt_dir_cons_none es x ps hm]
      by_cases hl : (x :: ps).getLast? = some dsStore
      · rw [if_pos hl]
      · rw [if_neg hl]
    | some c =>
      cases c with
      | file id =>
        by_cases hx : x = dsStore
        · have h2 : mapGet (pruneEntries es) x = none := by
            rw [mapGet_pruneEntries x es hwf, hm]
            dsimp only
            rw [if_pos hx]
          rw [fileAt_dir_cons_none _ x ps h2,
            fileAt_dir_cons_some es x ps _ hm]
          cases ps with
          | nil => rw [if_pos (by simp [hx])]
          | cons b ps2 =>
            rw [fileAt_file_cons]
            by_cases hl : (x :: b :: ps2).getLast? = some dsStore
            · rw [if_pos hl]
            · rw [if_neg hl]
        · have h2 : mapGet (pruneEntries es) x = some (.file id) := by
            rw [mapGet_pruneEntries x es hwf, hm]
            dsimp only
            rw [if_neg hx]
          rw [fileAt_dir_cons_some _ x ps _ h2,
            fileAt_dir_cons_some es x ps _ hm]
          cases ps with
          | nil => rw [if_neg (by simp [hx])]
          | cons b ps2 =>
            by_cases hl : (x :: b :: ps2).getLast? = some dsStore
            · rw [if_pos hl, fileAt_file_cons]
            · rw [if_neg hl]
      | dir cs =>
        have hwfc : wellFormed (.dir cs) = true :=
          wellFormed_mapGet es x _ hwf hm
        have hrec := ih cs hwfc
        cases hpc : pruneEntries cs with
        | nil =>
          have h2 : mapGet (pruneEntries es) x = none := by
            rw [mapGet_pruneEntries x es hwf, hm]
            dsimp only
            rw [hpc]
          rw [fileAt_dir_cons_none _ x ps h2,
            fileAt_dir_cons_some es x ps _ hm]
          rw [hpc] at hrec
          have hnil : fileAt (.dir ([] : List (Str × FsNode))) ps = none := by
            cases ps with
            | nil => rfl
            | cons b ps2 =>
              rw [fileAt_dir_cons_none [] b ps2
                (show mapGet ([] : List (Str × FsNode)) b = none from rfl)]
          rw [hnil] at hrec
          cases ps with
          | nil =>
            rw [show fileAt (FsNode.dir cs) [] = none from rfl]
            by_cases hl : ([x] : FsPath).getLast? = some dsStore
            · rw [if_pos hl]
            · rw [if_neg hl]
          | cons b ps2 =>
            rw [List.getLast?_cons_cons]
            exact hrec
        | cons e0 es2 =>
          have h2 : mapGet (pruneEntries es) x = some (.dir (e0 :: es2)) := by
            rw [mapGet_pruneEntries x es hwf, hm]
            dsimp only
            rw [hpc]
          rw [fileAt_dir_cons_some _ x ps _ h2,
            fileAt_dir_cons_some es x ps _ hm]
          rw [hpc] at hrec
          cases ps with
          | nil =>
            rw [show fileAt (FsNode.dir (e0 :: es2)) [] = none from rfl,
              show fileAt (FsNode.dir cs) [] = none from rfl]
            by_cases hl : ([x] : FsPath).getLast? = some dsStore
            · rw [if_pos hl]
            · rw [if_neg hl]
          | cons b ps2 =>
            rw [List.getLast?_cons_cons]
            exact hrec

theorem list_files_ne_nil (t : FsNode) (dirPath : FsPath) :
    ∀ q ∈ list_files t dirPath, q ≠ [] := by
  intro q hq
  unfold list_files at hq
  cases hlk : lookupNode t dirPath with
  | none =>
    rw [hlk] at hq
    exact absurd hq (List.not_mem_nil q)
  | some c =>
    cases c with
    | file id =>
      rw [hlk] at hq
      exact absurd hq (List.not_mem_nil q)
    | dir es2 =>
      rw [hlk] at hq
      rw [List.mem_filterMap] at hq
      obtain ⟨e, _, he⟩ := hq
      obtain ⟨n, c2⟩ := e
      cases c2 with
      | file id =>
        have he2 : dirPath ++ [n] = q := Option.some.inj he
        rw [← he2]
        simp
      | dir cs => exact Option.noConfusion he

theorem walk_dir_ne_nil (t : FsNode) (dirPath : FsPath) :
    ∀ q ∈ walk_dir t dirPath, q ≠ [] := by
  intro q hq
  unfold walk_dir at hq
  cases hlk : lookupNode t dirPath with
  | none =>
    rw [hlk] at hq
    exact absurd hq (List.not_mem_nil q)
  | some c =>
    cases c with
    | file id =>
      rw [hlk] at hq
      exact absurd hq (List.not_mem_nil q)
    | dir es2 =>
      rw [hlk] at hq
      exact walk_entries_ne_nil dirPath es2 q hq

theorem get_matching_files_ne_nil (pattern : Str)
    (es : List (Str × FsNode)) :
    ∀ q ∈ get_matching_files pattern (.dir es), q ≠ [] := by
  intro q hq
  unfold get_matching_files at hq
  by_cases hstar : ends_with pattern ['*'] = true
  · rw [if_pos hstar] at hq
    unfold into_sorted at hq
    rw [List.mem_insertionSort] at hq
    rw [List.mem_filter] at hq
    by_cases hdd : ends_with pattern ['*', '*'] = true
    · rw [if_pos hdd] at hq
      exact walk_dir_ne_nil _ _ q hq.1
    · rw [if_neg hdd] at hq
      exact list_files_ne_nil _ _ q hq.1
  · rw [if_neg hstar] at hq
    cases hlk : lookupNode (.dir es) (path_comps pattern) with
    | none =>
      rw [hlk] at hq
      exact absurd hq (List.not_mem_nil q)
    | some c =>
      cases c with
      | dir cs =>
        rw [hlk] at hq
        exact absurd hq (List.not_mem_nil q)
      | file id =>
        rw [hlk] at hq
        have hq2 : q ∈ [path_comps pattern] := hq
        rw [List.mem_singleton] at hq2
        subst hq2
        intro hnil
        rw [hnil] at hlk
        cases hlk

theorem fileAt_dir_nil_entries (p : FsPath) :
    fileAt (.dir ([] : List (Str × FsNode))) p = none := by
  cases p with
  | nil => rfl
  | cons x ps =>
    rw [fileAt_dir_cons_none [] x ps
      (show mapGet ([] : List (Str × FsNode)) x = none from rfl)]

/-- After the pruning pass no empty directory remains anywhere. -/
theorem no_empty_dirs_prune (l : List (Str × FsNode)) :
    no_empty_dirs (pruneEntries l) = true := by
  induction l using pruneEntries.induct with
  | case1 => simp [pruneEntries, no_empty_dirs]
  | case2 id rest ih =>
    rw [show pruneEntries ((dsStore, .file id) :: rest) =
      pruneEntries rest from by simp [pruneEntries]]
    exact ih
  | case3 name id rest hname ih =>
    rw [show pruneEntries ((name, .file id) :: rest) =
      (name, .file id) :: pruneEntries rest from by
        simp [pruneEntries, hname]]
    rw [show no_empty_dirs ((name, FsNode.file id) :: pruneEntries rest) =
      no_empty_dirs (pruneEntries rest) from by simp [no_empty_dirs]]
    exact ih
  | case4 name es0 rest hpr ih1 ih2 =>
    rw [show pruneEntries ((name, .dir es0) :: rest) =
      pruneEntries rest from by simp [pruneEntries, hpr]]
    exact ih2
  | case5 name es0 rest e0 es2 hpr ih1 ih2 =>
    rw [show pruneEntries ((name, .dir es0) :: rest) =
      (name, .dir (e0 :: es2)) :: pruneEntries rest from by
        simp [pruneEntries, hpr]]
    simp only [no_empty_dirs, List.isEmpty_cons, Bool.not_false,
      Bool.true_and, Bool.and_eq_true]
    refine ⟨?_, ih2⟩
    rw [← hpr]
    exact ih1

/-- Claim C9: `remove_matching_files` returns the sorted list of
exactly the pattern-matched relative paths, and the surviving working
tree has exactly the original files minus the matched ones minus the
`.DS_Store` artifacts met while pruning, with every directory left
empty removed; the operation acts on the working tree alone (its
signature takes no vault state and no password, mirroring
`src/glob.rs` lines 114-123, which never name the lock directory). -/
theorem remove_matching_clears_exactly (pattern : Str)
    (es : List (Str × FsNode)) (hwf : wellFormed (.dir es) = true) :
    List.Sorted (· ≤ ·) (remove_matching_files pattern es).2 ∧
    (∀ q, q ∈ (remove_matching_files pattern es).2 ↔
      q ∈ get_matching_files pattern (.dir es)) ∧
    (∀ p, fileAtRoot (remove_matching_files pattern es).1 p =
      if p ∈ get_matching_files pattern (.dir es) ∨
          p.getLast? = some dsStore
      then none else fileAt (.dir es) p) ∧
    (∀ es2, (remove_matching_files pattern es).1 = some es2 →
      no_empty_dirs es2 = true) := by
  obtain ⟨es1, hfold⟩ := foldl_remove_dir
    (get_matching_files pattern (.dir es)) es
  obtain ⟨hwf1, hchar⟩ := fileAt_foldl_remove
    (get_matching_files pattern (.dir es)) (.dir es) hwf
    (get_matching_files_ne_nil pattern es)
  rw [hfold] at hwf1 hchar
  have hsnd : (remove_matching_files pattern es).2 =
      into_sorted (get_matching_files pattern (.dir es)) := rfl
  have hfst : (remove_matching_files pattern es).1 =
      remove_empty_dirs es1 := by
    unfold remove_matching_files
    dsimp only
    rw [hfold]
  refine ⟨?_, ?_, ?_, ?_⟩
  · rw [hsnd]
    exact List.sorted_insertionSort _ _
  · intro q
    rw [hsnd]
    unfold into_sorted
    rw [List.mem_insertionSort]
  case refine_4 =>
    intro es2 heq
    rw [hfst] at heq
    unfold remove_empty_dirs at heq
    cases hpr : pruneEntries es1 with
    | nil =>
      rw [hpr] at heq
      exact Option.noConfusion heq
    | cons e0 es3 =>
      rw [hpr] at heq
      have heq2 : e0 :: es3 = es2 := Option.some.inj heq
      rw [← heq2, ← hpr]
      exact no_empty_dirs_prune es1
  · intro p
    rw [hfst]
    unfold remove_empty_dirs
    cases hpr : pruneEntries es1 with
    | nil =>
      have hP := fileAt_pruneEntries p es1 hwf1
      rw [hpr, fileAt_dir_nil_entries p] at hP
      show (none : Option Nat) =
        if p ∈ get_matching_files pattern (.dir es) ∨
            p.getLast? = some dsStore
        then none else fileAt (.dir es) p
      by_cases hmem : p ∈ get_matching_files pattern (.dir es) ∨
          p.getLast? = some dsStore
      · rw [if_pos hmem]
      · rw [if_neg hmem]
        have h1 : fileAt (.dir es1) p = fileAt (.dir es) p := by
          rw [hchar p, if_neg (not_or.mp hmem).1]
        rw [if_neg (not_or.mp hmem).2] at hP
        rw [← h1]
        exact hP
    | cons e0 es2 =>
      have hP := fileAt_pruneEntries p es1 hwf1
      rw [hpr] at hP
      show fileAt (.dir (e0 :: es2)) p =
        if p ∈ get_matching_files pattern (.dir es) ∨
            p.getLast? = some dsStore
        then none else fileAt (.dir es) p
      rw [hP, hchar p]
      by_cases hds : p.getLast? = some dsStore
      · rw [if_pos hds, if_pos (Or.inr hds)]
      · rw [if_neg hds]
        by_cases hmem : p ∈ get_matching_files pattern (.dir es)
        · rw [if_pos hmem, if_pos (Or.inl hmem)]
        · rw [if_neg hmem, if_neg (by
            intro hor
            rcases hor with h | h
            · exact hmem h
            · exact hds h)]

/-- A concrete working directory checked through
`remove_matching_clears_exactly`: the demo tree is well-formed, and
removing `d1/f*` matches exactly its two `f` files, in sorted order. -/
theorem remove_matching_clears_exactly_witness :
    wellFormed (.dir [("d1".data, .dir [("f1".data, .file 1),
        ("f2".data, .file 2), (".DS_Store".data, .file 9)]),
      ("d2".data, .dir [("g".data, .file 3)])]) = true ∧
    (remove_matching_files "d1/f*".data
      [("d1".data, .dir [("f1".data, .file 1),
        ("f2".data, .file 2), (".DS_Store".data, .file 9)]),
      ("d2".data, .dir [("g".data, .file 3)])]).2 =
      [["d1".data, "f1".data], ["d1".data, "f2".data]] ∧
    List.Sorted (· ≤ ·) (remove_matching_files "d1/f*".data
      [("d1".data, .dir [("f1".data, .file 1),
        ("f2".data, .file 2), (".DS_Store".data, .file 9)]),
      ("d2".data, .dir [("g".data, .file 3)])]).2 :=
  ⟨by simp [wellFormed], by decide,
    (remove_matching_clears_exactly "d1/f*".data
      [("d1".data, .dir [("f1".data, .file 1),
        ("f2".data, .file 2), (".DS_Store".data, .file 9)]),
      ("d2".data, .dir [("g".data, .file 3)])] (by simp [wellFormed])).1⟩

